import Mathlib

/-!
Verification of the SEO keyword generator's two core subsystems, as a shallow
embedding over `List Char`:

* the resilient LLM-response JSON extraction / parse / validation pipeline
  (`src/services/geminiService.ts` and `src/services/openaiService.ts`), and
* the readability-style content extractor of `src/App.tsx`
  (`calculateScore`, best-container selection, `extractCleanText`, and the
  500-character length gate).

Strings are modelled as `List Char`.  JavaScript numbers appearing in scores
are modelled as `ℚ` (the source only adds, multiplies and divides integer
character counts, so `ℚ` is exact up to the float rounding of the literal
`0.35`; nothing proved here depends on that rounding).  Whitespace classes are
modelled on their ASCII fragment.
-/

namespace TdsSeo

/-- ASCII fragment of JavaScript's `\s` class (also used by `String.trim`):
space, tab, newline, carriage return, vertical tab, form feed. -/
def isJsWs (c : Char) : Bool :=
  c = ' ' || c = '\t' || c = '\n' || c = '\r' || c = Char.ofNat 11 || c = Char.ofNat 12

/-- JSON's insignificant whitespace (RFC 8259): space, tab, newline, carriage
return.  A subset of `isJsWs`. -/
def isJsonWs (c : Char) : Bool :=
  c = ' ' || c = '\t' || c = '\n' || c = '\r'

/-- Model of `String.prototype.trimStart` on the ASCII whitespace fragment. -/
def trimLeft (l : List Char) : List Char := l.dropWhile isJsWs

/-- Model of `String.prototype.trimEnd` on the ASCII whitespace fragment. -/
def trimRight (l : List Char) : List Char := (l.reverse.dropWhile isJsWs).reverse

/-- Model of `String.prototype.trim` on the ASCII whitespace fragment. -/
def trimWs (l : List Char) : List Char := trimRight (trimLeft l)

/-! ## JSON values and `JSON.parse`

`JValue` is the result shape of `JSON.parse`.  Numbers keep their source
literal (the pipeline never computes with them, so this avoids modelling IEEE
doubles); object member lists keep insertion order, and duplicate keys follow
the JavaScript rule that the last occurrence wins (see `jGet`). -/

inductive JValue where
  | null : JValue
  | bool : Bool → JValue
  | num : List Char → JValue
  | str : List Char → JValue
  | arr : List JValue → JValue
  | obj : List (List Char × JValue) → JValue

/-- Drop JSON insignificant whitespace. -/
def skipWs (l : List Char) : List Char := l.dropWhile isJsonWs

/-- Decode a single-character JSON escape. -/
def escDecode (c : Char) : Option Char :=
  if c = '"' then some '"'
  else if c = '\\' then some '\\'
  else if c = '/' then some '/'
  else if c = 'b' then some (Char.ofNat 8)
  else if c = 'f' then some (Char.ofNat 12)
  else if c = 'n' then some '\n'
  else if c = 'r' then some '\r'
  else if c = 't' then some '\t'
  else none

/-- Hexadecimal digit value. -/
def hexVal (c : Char) : Option Nat :=
  if '0' ≤ c ∧ c ≤ '9' then some (c.toNat - 48)
  else if 'a' ≤ c ∧ c ≤ 'f' then some (c.toNat - 87)
  else if 'A' ≤ c ∧ c ≤ 'F' then some (c.toNat - 55)
  else none

/-- Body of a JSON string after the opening quote: returns the decoded
content and the remaining input after the closing quote.  Fueled by the input
length.  (`\uXXXX` code units outside Lean's scalar-value range collapse to
`Char.ofNat`'s default; no claim depends on such content.) -/
def parseStringBody : Nat → List Char → Option (List Char × List Char)
  | 0, _ => none
  | _ + 1, [] => none
  | fuel + 1, c :: rest =>
    if c = '"' then some ([], rest)
    else if c = '\\' then
      match rest with
      | [] => none
      | e :: rest2 =>
        if e = 'u' then
          match rest2 with
          | h1 :: h2 :: h3 :: h4 :: rest3 =>
            match hexVal h1, hexVal h2, hexVal h3, hexVal h4 with
            | some a, some b, some cc, some d =>
              match parseStringBody fuel rest3 with
              | some (s, r) => some (Char.ofNat (((a * 16 + b) * 16 + cc) * 16 + d) :: s, r)
              | none => none
            | _, _, _, _ => none
          | _ => none
        else
          match escDecode e with
          | some d =>
            match parseStringBody fuel rest2 with
            | some (s, r) => some (d :: s, r)
            | none => none
          | none => none
    else if c.toNat < 32 then none
    else
      match parseStringBody fuel rest with
      | some (s, r) => some (c :: s, r)
      | none => none

def isDigitCh (c : Char) : Bool := '0' ≤ c && c ≤ '9'

/-- Integer part of a JSON number: `0|[1-9][0-9]*` (a leading `0` takes no
further digits). -/
def intDigits : List Char → Option (List Char × List Char)
  | [] => none
  | c :: rest =>
    if c = '0' then some (['0'], rest)
    else if isDigitCh c then
      some (c :: rest.takeWhile isDigitCh, rest.dropWhile isDigitCh)
    else none

/-- Optional fraction part of a JSON number: `(\.[0-9]+)?` - a dot not
followed by a digit is a syntax error. -/
def fracPart : List Char → Option (List Char × List Char)
  | [] => some ([], [])
  | c :: r =>
    if c = '.' then
      if r.takeWhile isDigitCh = [] then none
      else some ('.' :: r.takeWhile isDigitCh, r.dropWhile isDigitCh)
    else some ([], c :: r)

/-- Optional exponent part of a JSON number: `([eE][+-]?[0-9]+)?`. -/
def expPart : List Char → Option (List Char × List Char)
  | [] => some ([], [])
  | e :: r =>
    if e = 'e' ∨ e = 'E' then
      let (sgn, r2) :=
        match r with
        | [] => (([] : List Char), [])
        | a :: rr =>
          if a = '+' then (['+'], rr)
          else if a = '-' then (['-'], rr)
          else (([] : List Char), a :: rr)
      if r2.takeWhile isDigitCh = [] then none
      else some (e :: (sgn ++ r2.takeWhile isDigitCh), r2.dropWhile isDigitCh)
    else some ([], e :: r)

/-- JSON number literal: `-?(0|[1-9][0-9]*)(\.[0-9]+)?([eE][+-]?[0-9]+)?`.
Returns the literal text and the rest of the input. -/
def parseNumberLit (l : List Char) : Option (List Char × List Char) :=
  let (neg, l1) :=
    match l with
    | [] => (([] : List Char), [])
    | c :: r => if c = '-' then (['-'], r) else (([] : List Char), c :: r)
  match intDigits l1 with
  | none => none
  | some (ip, l2) =>
    match fracPart l2 with
    | none => none
    | some (fp, l3) =>
      match expPart l3 with
      | none => none
      | some (ep, l4) => some (neg ++ ip ++ fp ++ ep, l4)

/-- Consume an exact literal (for `true` / `false` / `null` tails). -/
def stripLit : List Char → List Char → Option (List Char)
  | [], l => some l
  | _ :: _, [] => none
  | p :: ps, c :: cs => if c = p then stripLit ps cs else none

mutual

/-- JSON value parser (strict, RFC 8259 grammar as implemented by
`JSON.parse`).  Expects its input to start directly at the value (no leading
whitespace); returns the value and the unconsumed rest. -/
def parseValue : Nat → List Char → Option (JValue × List Char)
  | 0, _ => none
  | _ + 1, [] => none
  | fuel + 1, c :: rest =>
    if c = '{' then
      match skipWs rest with
      | [] => none
      | c2 :: r2 =>
        if c2 = '}' then some (JValue.obj [], r2)
        else
          match parseMembers fuel (c2 :: r2) with
          | some (kvs, r3) => some (JValue.obj kvs, r3)
          | none => none
    else if c = '[' then
      match skipWs rest with
      | [] => none
      | c2 :: r2 =>
        if c2 = ']' then some (JValue.arr [], r2)
        else
          match parseElements fuel (c2 :: r2) with
          | some (xs, r3) => some (JValue.arr xs, r3)
          | none => none
    else if c = '"' then
      match parseStringBody (rest.length + 1) rest with
      | some (s, r) => some (JValue.str s, r)
      | none => none
    else if c = 't' then
      match stripLit ['r', 'u', 'e'] rest with
      | some r => some (JValue.bool true, r)
      | none => none
    else if c = 'f' then
      match stripLit ['a', 'l', 's', 'e'] rest with
      | some r => some (JValue.bool false, r)
      | none => none
    else if c = 'n' then
      match stripLit ['u', 'l', 'l'] rest with
      | some r => some (JValue.null, r)
      | none => none
    else
      match parseNumberLit (c :: rest) with
      | some (lit, r) => some (JValue.num lit, r)
      | none => none

/-- One-or-more `"key" : value` members; consumes the closing `}`. -/
def parseMembers : Nat → List Char → Option (List (List Char × JValue) × List Char)
  | 0, _ => none
  | fuel + 1, input =>
    match input with
    | [] => none
    | c :: rest =>
      if c = '"' then
        match parseStringBody (rest.length + 1) rest with
        | some (key, r1) =>
          match skipWs r1 with
          | [] => none
          | c2 :: r2 =>
            if c2 = ':' then
              match parseValue fuel (skipWs r2) with
              | some (v, r3) =>
                match skipWs r3 with
                | [] => none
                | c3 :: r4 =>
                  if c3 = ',' then
                    match parseMembers fuel (skipWs r4) with
                    | some (kvs, r5) => some ((key, v) :: kvs, r5)
                    | none => none
                  else if c3 = '}' then some ([(key, v)], r4)
                  else none
              | none => none
            else none
        | none => none
      else none

/-- One-or-more array elements; consumes the closing `]`. -/
def parseElements : Nat → List Char → Option (List JValue × List Char)
  | 0, _ => none
  | fuel + 1, input =>
    match parseValue fuel input with
    | some (v, r1) =>
      match skipWs r1 with
      | [] => none
      | c2 :: r2 =>
        if c2 = ',' then
          match parseElements fuel (skipWs r2) with
          | some (xs, r3) => some (v :: xs, r3)
          | none => none
        else if c2 = ']' then some ([v], r2)
        else none
    | none => none

end

/-- Model of `JSON.parse`: a single value with surrounding whitespace, nothing else. -/
def parseJson (l : List Char) : Option JValue :=
  match parseValue (l.length + 1) (skipWs l) with
  | some (v, r) => if skipWs r = [] then some v else none
  | none => none

/-! ## `validateKeywordResult` (src/services/geminiService.ts, lines 41-104) -/

/-- JavaScript property read `data.name` on a parsed JSON value: objects look
the name up (duplicate keys: the last occurrence wins, as in `JSON.parse`);
every other value - including arrays, whose relevant properties are numeric -
yields `undefined`, modelled as `none`. -/
def jGet (v : JValue) (name : List Char) : Option JValue :=
  match v with
  | JValue.obj kvs =>
    match kvs.reverse.find? (fun kv => kv.1 = name) with
    | some kv => some kv.2
    | none => none
  | _ => none

/-- JavaScript truthiness of a parsed JSON value.  A JSON number literal is
falsy exactly when all its mantissa digits are `0` (the exponent cannot make
a zero nonzero or vice versa); `NaN` cannot come out of `JSON.parse`. -/
def jsTruthy (v : JValue) : Bool :=
  match v with
  | JValue.null => false
  | JValue.bool b => b
  | JValue.str s => !s.isEmpty
  | JValue.num lit => !((lit.filter isDigitCh).all (fun c => c = '0'))
  | JValue.arr _ => true
  | JValue.obj _ => true

/-- The `typeof data === 'object'` guard combined with the `!data` truthiness
guard of `validateKeywordResult`: `null` is falsy, arrays and objects pass,
primitives fail the `typeof` test. -/
def jsObjectLike (v : JValue) : Bool :=
  match v with
  | JValue.obj _ => true
  | JValue.arr _ => true
  | _ => false

/-- The per-item check of `validateKeywordArray`:
`item && typeof item === 'object' && typeof item.term === 'string' &&
item.term.trim().length > 0 && typeof item.rationale === 'string' &&
item.rationale.trim().length > 0`.  Arrays pass the `typeof` test but have
neither property; primitives and `null` fail earlier. -/
def validItem (v : JValue) : Bool :=
  (match jGet v (("term").toList) with
   | some (JValue.str t) => decide (0 < (trimWs t).length)
   | _ => false) &&
  (match jGet v (("rationale").toList) with
   | some (JValue.str t) => decide (0 < (trimWs t).length)
   | _ => false)

/-- Model of `validateKeywordArray(arr, minCount, maxCount, name, required)`:
non-arrays fail only when required; arrays must have length in
`[minCount, maxCount]` and every item valid. -/
def validateKeywordArray (arr : Option JValue) (minCount maxCount : Nat)
    (required : Bool) : Bool :=
  match arr with
  | some (JValue.arr xs) =>
    if xs.length < minCount ∨ maxCount < xs.length then false
    else xs.all validItem
  | _ => !required

/-- The `coreValid` conjunction of `validateKeywordResult`: primary 1-10,
secondary 2-20, longtail 3-30, and a non-empty-after-trim string
`competitorInsights`. -/
def coreValid (d : JValue) : Bool :=
  validateKeywordArray (jGet d (("primary").toList)) 1 10 true &&
  validateKeywordArray (jGet d (("secondary").toList)) 2 20 true &&
  validateKeywordArray (jGet d (("longtail").toList)) 3 30 true &&
  (match jGet d (("competitorInsights").toList) with
   | some (JValue.str s) => decide (0 < (trimWs s).length)
   | _ => false)

/-- Condition `if (data.lsiKeywords && !validateKeywordArray(data.lsiKeywords, 5, 8,
'LSI keywords', false))` - the condition under which the source logs
"LSI keywords present but invalid - will be ignored" (geminiService.ts lines
91-93).  These guards only feed `console.warn`; they do not affect the value
`validateKeywordResult` returns. -/
def lsiInvalidWarned (d : JValue) : Bool :=
  (match jGet d (("lsiKeywords").toList) with
   | some v => jsTruthy v
   | none => false) &&
  !validateKeywordArray (jGet d (("lsiKeywords").toList)) 5 8 false

/-- Condition `if (data.questionKeywords && !validateKeywordArray(
data.questionKeywords, 5, 8, 'Question keywords', false))` - the
warning-only guard for the optional `questionKeywords` category
(geminiService.ts lines 95-97). -/
def questionInvalidWarned (d : JValue) : Bool :=
  (match jGet d (("questionKeywords").toList) with
   | some v => jsTruthy v
   | none => false) &&
  !validateKeywordArray (jGet d (("questionKeywords").toList)) 5 8 false

/-- Condition `if (data.entities && !validateKeywordArray(data.entities, 1,
50, 'Entities', false))` - the warning-only guard for the optional
`entities` category (geminiService.ts lines 99-101). -/
def entitiesInvalidWarned (d : JValue) : Bool :=
  (match jGet d (("entities").toList) with
   | some v => jsTruthy v
   | none => false) &&
  !validateKeywordArray (jGet d (("entities").toList)) 1 50 false

/-- Model of `validateKeywordResult(data)` (boolean): the object-likeness guard, then
`coreValid`; the optional-category checks only log warnings and never change
the returned boolean. -/
def validateKeywordResult (d : JValue) : Bool :=
  if jsObjectLike d then coreValid d else false

/-- JavaScript property access on a `Boolean` primitive: booleans have no
`isValid` (or `errors`) property, so the read yields `undefined`. -/
def boolPropRead (_b : Bool) (_name : List Char) : Option JValue := none

/-! ## The two providers' post-parse steps -/

/-- Insert-or-overwrite a field, as the object spread
`{ ...parsedResult, k: v }` does: an existing key keeps its position and
takes the new value, a new key is appended. -/
def setField (kvs : List (List Char × JValue)) (k : List Char) (v : JValue) :
    List (List Char × JValue) :=
  if kvs.any (fun kv => kv.1 = k) then
    kvs.map (fun kv => if kv.1 = k then (k, v) else kv)
  else kvs ++ [(k, v)]

/-- The value `generateKeywords` returns on success
(src/services/geminiService.ts, lines 1374-1379):
`{ ...parsedResult, searchReferences, contentType, detectedLanguage }`.
Only objects reach this point (arrays never pass `coreValid`). -/
def buildGeminiResult (d : JValue) (refs ct lang : JValue) : JValue :=
  match d with
  | JValue.obj kvs =>
    JValue.obj
      (setField (setField (setField kvs (("searchReferences").toList) refs)
          (("contentType").toList) ct)
        (("detectedLanguage").toList) lang)
  | _ => d

/-! ## JSON extraction strategies
(src/services/geminiService.ts lines 1290-1333, and the identical strategy
chain in src/services/openaiService.ts lines 86-116) -/

/-- The backtick character (U+0060). -/
def btick : Char := Char.ofNat 96

/-- The literal ````` fence of strategy 2's regex. -/
def fence : List Char := [btick, btick, btick]

/-- Does `\s*` followed by the closing fence match here?  In
`([\s\S]*?)\s*` + fence, for a fixed group end the inner `\s*` must reach a
fence occurrence exactly at the end of the whitespace run (backticks are not
whitespace, so no shorter run can be followed by a backtick). -/
def closeMatches (l : List Char) : Bool :=
  fence.isPrefixOf (l.dropWhile isJsWs)

/-- The lazy group `([\s\S]*?)`: the shortest prefix after which
`\s*` + fence matches; `none` when no closing fence exists. -/
def findGroup : List Char → Option (List Char)
  | [] => none
  | c :: rest =>
    if closeMatches (c :: rest) then some []
    else
      match findGroup rest with
      | some g => some (c :: g)
      | none => none

/-- After an opening fence: `(?:json)?\s*([\s\S]*?)\s*` + fence.  The
optional `json` tag is tried greedily first; the first `\s*` is greedy (its
maximal run never has to be given back, since backticks are not whitespace).
Note `closeMatches []` is false, so an immediately-closing fence with an
empty group is handled by `findGroup`'s head case. -/
def fenceTail (l : List Char) : Option (List Char) :=
  let attempt : List Char → Option (List Char) := fun m =>
    if closeMatches m then some [] else findGroup (m.dropWhile isJsWs)
  match (if (("json").toList).isPrefixOf l then attempt (l.drop 4) else none) with
  | some g => some g
  | none => attempt l

/-- Leftmost match of strategy 2's
`/(backtick x3)(?:json)?\s*([\s\S]*?)\s*(backtick x3)/`, returning capture
group 1. -/
def codeBlockMatch : List Char → Option (List Char)
  | [] => none
  | c :: rest =>
    if fence.isPrefixOf (c :: rest) then
      match fenceTail ((c :: rest).drop 3) with
      | some g => some g
      | none => codeBlockMatch rest
    else codeBlockMatch rest

/-- The input up to and including the last occurrence of `c`; `[]` when `c`
does not occur. -/
def takeToLast (c : Char) (l : List Char) : List Char :=
  (l.reverse.dropWhile (fun x => x ≠ c)).reverse

/-- Strategy 3, `/\{[\s\S]*\}/`: leftmost-greedy means the span from the
first `{` to the last `}` after it; no match when no `}` follows the first
`{`. -/
def objectMatch (l : List Char) : Option (List Char) :=
  let t := l.dropWhile (fun x => x ≠ '{')
  let v := takeToLast '}' t
  if v = [] then none else some v

/-- Case-insensitive ASCII lowering (the regexes only carry ASCII). -/
def lowerCh (c : Char) : Char :=
  if 'A' ≤ c ∧ c ≤ 'Z' then Char.ofNat (c.toNat + 32) else c

/-- Case-insensitively strip a literal prefix. -/
def stripCi (p l : List Char) : Option (List Char) :=
  if (l.take p.length).map lowerCh = p.map lowerCh then some (l.drop p.length)
  else none

/-- The conversational prefixes of strategy 4, in alternation order:
`Here's`, `Here is`, `Output:`, `Result:`. -/
def s4Prefixes : List (List Char) :=
  [['H', 'e', 'r', 'e', Char.ofNat 39, 's'],
   ("Here is").toList,
   ("Output:").toList,
   ("Result:").toList]

/-- After the (possibly empty) prefix: `\s*(\{[\s\S]*\})`.  The `{` must sit
right after the whitespace run, and the greedy body runs to the last `}`. -/
def braceSpanAfterWs (l : List Char) : Option (List Char) :=
  match l.dropWhile isJsWs with
  | '{' :: rest =>
    let v := takeToLast '}' ('{' :: rest)
    if v = [] then none else some v
  | _ => none

/-- Strategy 4's pattern anchored at one position: try each prefix
alternative, then the empty prefix, each followed by `\s*(\{[\s\S]*\})`. -/
def strat4At (l : List Char) : Option (List Char) :=
  (s4Prefixes.foldr
    (fun p acc =>
      match (stripCi p l).bind braceSpanAfterWs with
      | some g => some g
      | none => acc)
    none) |>.orElse (fun _ => braceSpanAfterWs l)

/-- Leftmost match of strategy 4's
`/(?:Here's|Here is|Output:|Result:)?\s*(\{[\s\S]*\})/i`, returning capture
group 1. -/
def strat4 : List Char → Option (List Char)
  | [] => none
  | c :: rest =>
    match strat4At (c :: rest) with
    | some g => some g
    | none => strat4 rest

/-- The four-strategy extraction chain shared by both providers, producing
the `jsonText` candidate handed to clean-up/parse: strategy 1 keeps the
trimmed text when it starts with `{`; strategy 2 takes the fenced group
(only when the capture is non-empty - an empty `match[1]` is falsy); strategy
3 the greedy `{...}` span; strategy 4 the prefixed span; otherwise the
"no JSON found" error (`none`). -/
def extractCandidate (s : List Char) : Option (List Char) :=
  let t := trimWs s
  if t.head? = some '{' then some t
  else
    match codeBlockMatch t with
    | some g =>
      if g = [] then
        match objectMatch t with
        | some m => some m
        | none =>
          match strat4 t with
          | some g4 => some g4
          | none => none
      else some (trimWs g)
    | none =>
      match objectMatch t with
      | some m => some m
      | none =>
        match strat4 t with
        | some g4 => some g4
        | none => none

/-- The same chain with strategy 4 removed (strategies 1-3 only), for the
equivalence claim about strategy 4's reachability. -/
def extractCandidate3 (s : List Char) : Option (List Char) :=
  let t := trimWs s
  if t.head? = some '{' then some t
  else
    match codeBlockMatch t with
    | some g =>
      if g = [] then
        match objectMatch t with
        | some m => some m
        | none => none
      else some (trimWs g)
    | none =>
      match objectMatch t with
      | some m => some m
      | none => none

/-- The Gemini-path post-extraction clean-up (lines 1326-1333): trim, then
truncate after the last `}` when one occurs before the end.  (When the last
`}` is the final character the substring is the whole string, so the
unconditional `takeToLast` is exact.) -/
def geminiCleanup (l : List Char) : List Char :=
  let t := trimWs l
  if '}' ∈ t then takeToLast '}' t else t

/-- Gemini path, extraction through `JSON.parse`. -/
def geminiParsed (s : List Char) : Option JValue :=
  (extractCandidate s).bind (fun c => parseJson (geminiCleanup c))

/-- OpenAI path, extraction through `JSON.parse`: same strategy chain, but no
trim/truncate clean-up before parsing (src/services/openaiService.ts lines
118-127). -/
def openaiParsed (s : List Char) : Option JValue :=
  (extractCandidate s).bind parseJson

/-- Gemini path end-to-end on a raw response: extract, clean, parse, check
`validateKeywordResult`, and on success return the spread result (lines
1353-1379).  `refs`, `ct`, `lang` stand for the caller-supplied
`searchReferences`, `contentType` and `detectedLanguage`. -/
def geminiGenerate (s : List Char) (refs ct lang : JValue) : Option JValue :=
  match geminiParsed s with
  | some p => if validateKeywordResult p then some (buildGeminiResult p refs ct lang) else none
  | none => none

/-- OpenAI path acceptance test (src/services/openaiService.ts lines
129-139): `const validationResult = validateKeywordResult(parsedResult)`
binds the returned *boolean*, and the guard reads
`!validationResult.isValid`.  A property read on a `Boolean` primitive is
`undefined` (`boolPropRead`), which is falsy, so the guard throws. -/
def openaiAccepts (p : JValue) : Bool :=
  match boolPropRead (validateKeywordResult p) (("isValid").toList) with
  | some v => jsTruthy v
  | none => false

/-- OpenAI path end-to-end on a raw response: extract, parse, then the
`.isValid` guard; on acceptance, `detectedLanguage` is backfilled when absent
and the parsed object is returned as-is (lines 141-153). -/
def openaiGenerate (s : List Char) (lang : JValue) : Option JValue :=
  match openaiParsed s with
  | some p =>
    if openaiAccepts p then
      match jGet p (("detectedLanguage").toList) with
      | some _ => some p
      | none =>
        match p with
        | JValue.obj kvs => some (JValue.obj (setField kvs (("detectedLanguage").toList) lang))
        | _ => some p
    else none
  | none => none

/-! ## Content extractor (src/App.tsx) -/

/-- The data `calculateScore` reads from a DOM element: its `className` and
`id`, the `textContent` of every `p, li, blockquote, pre` descendant (in
document order), the comma count of the element's own `textContent`, the
summed anchor-text length, and the element's total text length. -/
structure HtmlElement where
  className : List Char
  idAttr : List Char
  blockTexts : List (List Char)
  commaCount : Nat
  linkTextLength : Nat
  totalTextLength : Nat

/-- The noise-indicator vocabulary of the class/id regex
`/comment|share|related|ad|footer|header|menu|nav|sidebar|promo|social|widget/`. -/
def noiseWords : List (List Char) :=
  [("comment").toList, ("share").toList, ("related").toList, ("ad").toList,
   ("footer").toList, ("header").toList, ("menu").toList, ("nav").toList,
   ("sidebar").toList, ("promo").toList, ("social").toList, ("widget").toList]

/-- The string `(element.className + ' ' + element.id).toLowerCase()` matched against
the noise vocabulary (alternation = some word occurs as a substring). -/
def noiseMatch (e : HtmlElement) : Bool :=
  noiseWords.any (fun w => decide (w <:+: (e.className ++ ' ' :: e.idAttr).map lowerCh))

/-- Model of `calculateScore` (src/App.tsx lines 24-50): the -100 noise sentinel, the
sum of trimmed block-text lengths exceeding 25, 10 points per comma, and the
link-density scaling above 0.35.  JavaScript doubles are modelled as `ℚ`. -/
def calculateScore (e : HtmlElement) : ℚ :=
  if noiseMatch e then -100
  else
    let base : ℚ :=
      ((((e.blockTexts.map (fun b => (trimWs b).length)).filter
          (fun n => 25 < n)).sum : Nat) : ℚ) + 10 * (e.commaCount : ℚ)
    let total : ℚ := if e.totalTextLength = 0 then 1 else (e.totalTextLength : ℚ)
    let density : ℚ := (e.linkTextLength : ℚ) / total
    if (35 : ℚ) / 100 < density then base * (1 - density) else base

/-- The candidate loop of `handleFetchAndGenerate` (src/App.tsx lines
133-145): `bestElement` starts as the document body with `bestScore = -1`;
when the candidate query is empty the body is the sole scored element; a
candidate replaces the best only on a strictly higher score. -/
def selectBestContainer (body : HtmlElement) (cands : List HtmlElement) : HtmlElement :=
  let toScore := if cands.isEmpty then [body] else cands
  (toScore.foldl
    (fun acc e =>
      let s := calculateScore e
      if acc.2 < s then (e, s) else acc)
    (body, (-1 : ℚ))).1

def isNlCh (c : Char) : Bool := c = '\n' || c = '\r'

/-- Global replace of `/(\n\s*){3,}/` by `"\n\n"`: a match starts at a `\n`
whose maximal whitespace run contains at least three `\n`, and greedily
consumes the whole run. -/
def collapseWsRuns : List Char → List Char
  | [] => []
  | c :: rest =>
    if c = '\n' ∧ 3 ≤ ((c :: rest).takeWhile isJsWs).count '\n' then
      '\n' :: '\n' :: collapseWsRuns (rest.dropWhile isJsWs)
    else c :: collapseWsRuns rest
termination_by l => l.length
decreasing_by
  · have hgen : ∀ m : List Char, (List.dropWhile isJsWs m).length ≤ m.length := by
      intro m
      induction m with
      | nil => simp
      | cons a t ih =>
        by_cases hh : isJsWs a = true
        · rw [List.dropWhile_cons_of_pos hh]; exact le_trans ih (by simp)
        · rw [List.dropWhile_cons_of_neg hh]
    simp only [List.length_cons]
    exact Nat.lt_succ_of_le (hgen _)
  · simp only [List.length_cons]; omega

/-- Global replace of `/(\r\n|\n|\r){3,}/gm` by `"\n\n"`: since each single
newline character is itself a valid alternative, a run of newline characters
matches exactly when its length is at least 3, and the greedy match consumes
the whole run. -/
def collapseNlSeq : List Char → List Char
  | [] => []
  | c :: rest =>
    if isNlCh c = true ∧ 3 ≤ ((c :: rest).takeWhile isNlCh).length then
      '\n' :: '\n' :: collapseNlSeq (rest.dropWhile isNlCh)
    else c :: collapseNlSeq rest
termination_by l => l.length
decreasing_by
  · have hgen : ∀ m : List Char, (List.dropWhile isNlCh m).length ≤ m.length := by
      intro m
      induction m with
      | nil => simp
      | cons a t ih =>
        by_cases hh : isNlCh a = true
        · rw [List.dropWhile_cons_of_pos hh]; exact le_trans ih (by simp)
        · rw [List.dropWhile_cons_of_neg hh]
    simp only [List.length_cons]
    exact Nat.lt_succ_of_le (hgen _)
  · simp only [List.length_cons]; omega

/-- Model of `extractCleanText` (src/App.tsx lines 56-77) on the traversal's block
texts: append each non-empty trimmed block text followed by a blank line,
then trim and collapse whitespace runs of three-or-more newlines. -/
def extractCleanText (blocks : List (List Char)) : List Char :=
  let text :=
    blocks.foldr
      (fun b acc =>
        let t := trimWs b
        if t.isEmpty then acc else t ++ '\n' :: '\n' :: acc)
      []
  collapseWsRuns (trimWs text)

/-- The spec's "final combined text": title, blank line, body, after newline
collapsing and trimming. -/
def finalCombinedText (title content : List Char) : List Char :=
  trimWs (title ++ '\n' :: '\n' :: collapseNlSeq content)

/-- The length gate of `handleFetchAndGenerate` (src/App.tsx lines 154-159):
`cleanedContent` collapses newline-sequence runs, `fetchedContent` is
`title\n\ncleanedContent`, and a trimmed length under 500 throws the
content-too-short error; otherwise `fetchedContent` itself is passed to
`generateKeywords`. -/
def handleFetchCheck (title content : List Char) : Except (List Char) (List Char) :=
  let cleanedContent := collapseNlSeq content
  let fetchedContent := title ++ '\n' :: '\n' :: cleanedContent
  if (trimWs fetchedContent).length < 500 then
    Except.error (("Article content is too short for accurate analysis (minimum 500 characters required). The extraction may have failed.").toList)
  else Except.ok fetchedContent

/-- Three consecutive newline characters occur somewhere. -/
def hasThreeNl : List Char → Bool
  | a :: b :: c :: rest => (a = '\n' && b = '\n' && c = '\n') || hasThreeNl (b :: c :: rest)
  | _ => false

/-! ## Concrete data for witnesses and counterexamples -/

/-- A keyword item `\x7b term, rationale \x7d`. -/
def kwItem (t r : List Char) : JValue :=
  JValue.obj [(("term").toList, JValue.str t), (("rationale").toList, JValue.str r)]

/-- A minimal parsed object passing `coreValid`: one primary, two secondary,
three longtail keywords and a non-empty `competitorInsights`. -/
def okData : JValue :=
  JValue.obj
    [(("primary").toList, JValue.arr [kwItem ['a'] ['b']]),
     (("secondary").toList, JValue.arr [kwItem ['c'] ['d'], kwItem ['e'] ['f']]),
     (("longtail").toList, JValue.arr [kwItem ['g'] ['h'], kwItem ['i'] ['j'], kwItem ['k'] ['l']]),
     (("competitorInsights").toList, JValue.str ['x'])]

/-- A keyword item whose `term` is a single space (all-whitespace). -/
def wsTermItem : JValue := kwItem [' '] ['r']

/-- The object `okData` with an invalid `lsiKeywords` category attached: one item with
a whitespace-only term (also outside the 5-8 length range). -/
def okDataBadLsi : JValue :=
  JValue.obj
    [(("primary").toList, JValue.arr [kwItem ['a'] ['b']]),
     (("secondary").toList, JValue.arr [kwItem ['c'] ['d'], kwItem ['e'] ['f']]),
     (("longtail").toList, JValue.arr [kwItem ['g'] ['h'], kwItem ['i'] ['j'], kwItem ['k'] ['l']]),
     (("competitorInsights").toList, JValue.str ['x']),
     (("lsiKeywords").toList, JValue.arr [wsTermItem])]

/-- A raw LLM response that is pure JSON and passes every Gemini-path check:
the `okData` object as JSON text. -/
def c1raw : List Char :=
  ("\x7b\"primary\":[\x7b\"term\":\"a\",\"rationale\":\"b\"\x7d],\"secondary\":[\x7b\"term\":\"c\",\"rationale\":\"d\"\x7d,\x7b\"term\":\"e\",\"rationale\":\"f\"\x7d],\"longtail\":[\x7b\"term\":\"g\",\"rationale\":\"h\"\x7d,\x7b\"term\":\"i\",\"rationale\":\"j\"\x7d,\x7b\"term\":\"k\",\"rationale\":\"l\"\x7d],\"competitorInsights\":\"x\"\x7d").toList

/-- A valid JSON object text containing a triple-backtick fence inside a
string value: `\x7b"a":"```"\x7d`. -/
def c5inner : List Char := ("\x7b\"a\":\"```\"\x7d").toList

/-- Wrap a text in a `json`-tagged fenced code block. -/
def wrapTagged (j : List Char) : List Char :=
  fence ++ ("json\n").toList ++ j ++ '\n' :: fence

/-- Wrap a text in an untagged fenced code block. -/
def wrapPlain (j : List Char) : List Char :=
  fence ++ '\n' :: j ++ '\n' :: fence

/-- The spec's KeywordItem well-formedness: a string `term` and a string
`rationale`, both non-empty after whitespace trimming. -/
def keywordItemNonempty (it : JValue) : Prop :=
  ∃ t rt, jGet it (("term").toList) = some (JValue.str t) ∧ trimWs t ≠ [] ∧
    jGet it (("rationale").toList) = some (JValue.str rt) ∧ trimWs rt ≠ []

/-- A parsed object carrying exactly the four required fields. -/
def mkCoreResult (xs ys zs : List JValue) (ci : List Char) : JValue :=
  JValue.obj
    [(("primary").toList, JValue.arr xs),
     (("secondary").toList, JValue.arr ys),
     (("longtail").toList, JValue.arr zs),
     (("competitorInsights").toList, JValue.str ci)]

/-! ## Basic whitespace / trim lemmas -/

theorem jsonWs_subset_jsWs (c : Char) (h : isJsonWs c = true) : isJsWs c = true := by
  simp only [isJsonWs, Bool.or_eq_true, decide_eq_true_eq] at h
  simp only [isJsWs, Bool.or_eq_true, decide_eq_true_eq]
  tauto

theorem dropWhile_head_false {p : Char → Bool} :
    ∀ l : List Char, ∀ c ∈ (l.dropWhile p).head?, p c = false := by
  intro l
  induction l with
  | nil => intro c hc; simp at hc
  | cons a t ih =>
    intro c hc
    by_cases h : p a = true
    · rw [List.dropWhile_cons_of_pos h] at hc
      exact ih c hc
    · rw [List.dropWhile_cons_of_neg h] at hc
      simp at hc
      subst hc
      simpa using h

theorem dropWhile_eq_self_of_head {p : Char → Bool} {l : List Char}
    (h : ∀ c ∈ l.head?, p c = false) : l.dropWhile p = l := by
  cases l with
  | nil => rfl
  | cons a t =>
    have ha : p a = false := h a (by simp)
    simp [List.dropWhile_cons_of_neg, ha]

theorem dropWhile_append_of_all {p : Char → Bool} {a : List Char} (b : List Char)
    (h : ∀ c ∈ a, p c = true) : (a ++ b).dropWhile p = b.dropWhile p := by
  induction a with
  | nil => simp
  | cons x t ih =>
    have hx : p x = true := h x (by simp)
    simp only [List.cons_append, List.dropWhile_cons_of_pos hx]
    exact ih (fun c hc => h c (by simp [hc]))

theorem exists_dropWhile_decomp (p : Char → Bool) (l : List Char) :
    ∃ w, l = w ++ l.dropWhile p ∧ ∀ c ∈ w, p c = true := by
  refine ⟨l.takeWhile p, ?_, ?_⟩
  · exact (List.takeWhile_append_dropWhile p l).symm
  · intro c hc; exact List.mem_takeWhile_imp hc

/-- The head of `trimLeft l` is never whitespace. -/
theorem trimLeft_head (l : List Char) : ∀ c ∈ (trimLeft l).head?, isJsWs c = false :=
  dropWhile_head_false l

/-- The last element of `trimRight l` is never whitespace. -/
theorem trimRight_last (l : List Char) :
    ∀ c ∈ (trimRight l).getLast?, isJsWs c = false := by
  intro c hc
  have : (trimRight l).getLast? = (l.reverse.dropWhile isJsWs).head? := by
    simp [trimRight, List.getLast?_reverse]
  rw [this] at hc
  exact dropWhile_head_false _ c hc

theorem trimRight_decomp (l : List Char) :
    ∃ w, l = trimRight l ++ w ∧ ∀ c ∈ w, isJsWs c = true := by
  obtain ⟨w, hw, hall⟩ := exists_dropWhile_decomp isJsWs l.reverse
  refine ⟨w.reverse, ?_, ?_⟩
  · have := congrArg List.reverse hw
    simpa [trimRight, List.reverse_append] using this
  · intro c hc; exact hall c (by simpa using hc)

theorem trimLeft_eq_self_of_head {l : List Char}
    (h : ∀ c ∈ l.head?, isJsWs c = false) : trimLeft l = l :=
  dropWhile_eq_self_of_head h

theorem trimRight_eq_self_of_last {l : List Char}
    (h : ∀ c ∈ l.getLast?, isJsWs c = false) : trimRight l = l := by
  have hrev : ∀ c ∈ l.reverse.head?, isJsWs c = false := by
    intro c hc
    exact h c (by simpa [List.getLast?_reverse] using hc)
  have := dropWhile_eq_self_of_head hrev
  simp [trimRight, this]

theorem trimWs_head (l : List Char) : ∀ c ∈ (trimWs l).head?, isJsWs c = false := by
  intro c hc
  -- trimRight's result is a prefix of its input, so a nonempty trimmed result
  -- shares its head with `trimLeft l`.
  obtain ⟨t, ht, _⟩ := trimRight_decomp (trimLeft l)
  cases hcase : trimWs l with
  | nil => rw [hcase] at hc; simp at hc
  | cons a s =>
    rw [hcase] at hc
    simp at hc
    have hdecomp : trimLeft l = a :: (s ++ t) := by
      rw [ht]
      simp only [trimWs] at hcase
      rw [hcase]
      simp
    have := trimLeft_head l a (by simp [hdecomp])
    simpa [hc] using this

theorem trimWs_last (l : List Char) : ∀ c ∈ (trimWs l).getLast?, isJsWs c = false :=
  trimRight_last (trimLeft l)

theorem trimWs_eq_self {l : List Char}
    (hh : ∀ c ∈ l.head?, isJsWs c = false)
    (hl : ∀ c ∈ l.getLast?, isJsWs c = false) : trimWs l = l := by
  unfold trimWs
  rw [trimLeft_eq_self_of_head hh, trimRight_eq_self_of_last hl]

theorem trimWs_idem (l : List Char) : trimWs (trimWs l) = trimWs l :=
  trimWs_eq_self (trimWs_head l) (trimWs_last l)

/-! ## Validation lemmas -/

theorem find?_map_keep (k k' : List Char) (v : JValue)
    (l : List (List Char × JValue)) (h : k' ≠ k) :
    (l.map (fun kv => if kv.1 = k then (k, v) else kv)).find?
        (fun kv => decide (kv.1 = k'))
      = l.find? (fun kv => decide (kv.1 = k')) := by
  induction l with
  | nil => rfl
  | cons a t ih =>
    by_cases ha : a.1 = k
    · have h1 : (if a.1 = k then (k, v) else a) = (k, v) := if_pos ha
      simp only [List.map_cons, List.find?_cons, h1]
      have hk : (decide (k = k')) = false := by simp [Ne.symm h]
      have ha' : (decide (a.1 = k')) = false := by simp [ha, Ne.symm h]
      simp [hk, ha', ih]
    · have h1 : (if a.1 = k then (k, v) else a) = a := if_neg ha
      simp only [List.map_cons, List.find?_cons, h1]
      by_cases hp : a.1 = k'
      · simp [hp]
      · simp [hp, ih]

theorem jGet_setField_ne (kvs : List (List Char × JValue)) (k k' : List Char)
    (v : JValue) (h : k' ≠ k) :
    jGet (JValue.obj (setField kvs k v)) k' = jGet (JValue.obj kvs) k' := by
  unfold setField
  by_cases hc : kvs.any (fun kv => kv.1 = k)
  · rw [if_pos hc]
    simp only [jGet]
    rw [show (kvs.map (fun kv => if kv.1 = k then (k, v) else kv)).reverse
          = kvs.reverse.map (fun kv => if kv.1 = k then (k, v) else kv) from
        (List.map_reverse _ _).symm]
    rw [find?_map_keep k k' v kvs.reverse h]
  · rw [if_neg hc]
    simp only [jGet, List.reverse_append]
    have hpred : (decide (((k, v) : List Char × JValue).1 = k')) = false := by
      simp [Ne.symm h]
    simp [List.find?_cons, hpred]

theorem jGet_buildGeminiResult_ne (kvs : List (List Char × JValue))
    (refs ct lang : JValue) (k : List Char)
    (h1 : k ≠ ("searchReferences").toList)
    (h2 : k ≠ ("contentType").toList)
    (h3 : k ≠ ("detectedLanguage").toList) :
    jGet (buildGeminiResult (JValue.obj kvs) refs ct lang) k
      = jGet (JValue.obj kvs) k := by
  unfold buildGeminiResult
  rw [jGet_setField_ne _ _ _ _ h3, jGet_setField_ne _ _ _ _ h2,
    jGet_setField_ne _ _ _ _ h1]

theorem validateKeywordArray_required_spec (f : Option JValue)
    (minC maxC : Nat) (h : validateKeywordArray f minC maxC true = true) :
    ∃ xs, f = some (JValue.arr xs) ∧ minC ≤ xs.length ∧ xs.length ≤ maxC ∧
      ∀ it ∈ xs, validItem it = true := by
  cases f with
  | none => simp [validateKeywordArray] at h
  | some v =>
    cases v with
    | arr xs =>
      simp only [validateKeywordArray] at h
      split at h
      · exact absurd h (by simp)
      · rename_i hrange
        push_neg at hrange
        refine ⟨xs, rfl, ?_, ?_, List.all_eq_true.mp h⟩ <;> omega
    | null => simp [validateKeywordArray] at h
    | bool b => simp [validateKeywordArray] at h
    | num n => simp [validateKeywordArray] at h
    | str s => simp [validateKeywordArray] at h
    | obj kvs => simp [validateKeywordArray] at h

theorem validItem_spec (it : JValue) (h : validItem it = true) :
    keywordItemNonempty it := by
  unfold validItem at h
  rw [Bool.and_eq_true] at h
  obtain ⟨h1, h2⟩ := h
  unfold keywordItemNonempty
  split at h1
  case _ t heq =>
    split at h2
    case _ rt heq2 =>
      refine ⟨t, rt, heq, ?_, heq2, ?_⟩ <;>
        · simp only [decide_eq_true_eq] at h1 h2
          intro hne
          first
          | (rw [hne] at h1; simp at h1)
          | (rw [hne] at h2; simp at h2)
    case _ => simp at h2
  case _ => simp at h1

theorem coreValid_decomp (d : JValue) (h : coreValid d = true) :
    validateKeywordArray (jGet d (("primary").toList)) 1 10 true = true ∧
    validateKeywordArray (jGet d (("secondary").toList)) 2 20 true = true ∧
    validateKeywordArray (jGet d (("longtail").toList)) 3 30 true = true := by
  unfold coreValid at h
  simp only [Bool.and_eq_true] at h
  exact ⟨h.1.1.1, h.1.1.2, h.1.2⟩

theorem validateKeywordResult_obj (kvs : List (List Char × JValue)) :
    validateKeywordResult (JValue.obj kvs) = coreValid (JValue.obj kvs) := rfl

/-! ## Claim theorems: validation behaviour -/

set_option maxRecDepth 20000 in
/-- Claim C1 (code-bug evaluation).  The two provider paths are not
equivalent.  On the pure-JSON, fully valid response `c1raw` the Gemini path
returns a result, while the OpenAI path returns none of it: its guard reads
the `isValid` property off the *boolean* returned by `validateKeywordResult`
(`undefined`, hence falsy), so it rejects every response.  The extraction
step also differs: with trailing text after the JSON object, the Gemini
path's truncation recovers the object, the OpenAI path's missing truncation
makes `JSON.parse` fail. -/
theorem c1_provider_paths_diverge :
    (geminiGenerate c1raw (JValue.arr []) (JValue.str ['n']) (JValue.str ['e'])).isSome = true
    ∧ openaiGenerate c1raw (JValue.str ['e']) = none
    ∧ (geminiParsed (c1raw ++ (" trailing").toList)).isSome = true
    ∧ openaiParsed (c1raw ++ (" trailing").toList) = none := by
  refine ⟨?_, ?_, ?_, ?_⟩ <;> rfl

/-- Claim C2 (counterexample).  `okDataBadLsi` has valid required categories
and an invalid `lsiKeywords` category: validation succeeds and logs the
would-be-ignored warning, but the invalid category is *not* removed - the
object `generateKeywords` returns still carries it unchanged. -/
theorem c2_optional_not_dropped_cex :
    validateKeywordResult okDataBadLsi = true
    ∧ lsiInvalidWarned okDataBadLsi = true
    ∧ jGet (buildGeminiResult okDataBadLsi (JValue.arr []) (JValue.str ['n']) (JValue.str ['e']))
        (("lsiKeywords").toList) = some (JValue.arr [wsTermItem]) :=
  ⟨rfl, rfl, rfl⟩

/-- Claim C2 (amended).  For every parsed object whose required categories
are valid, if any of the three optional categories (`lsiKeywords`,
`questionKeywords`, `entities`) is present but invalid, validation still
succeeds (only a console warning is emitted), and every optional category -
in particular the invalid one - is carried through unchanged into the object
`generateKeywords` returns; nothing is removed. -/
theorem c2_optional_invalid_carried_through (kvs : List (List Char × JValue))
    (refs ct lang : JValue)
    (hcore : coreValid (JValue.obj kvs) = true)
    (_hbad : lsiInvalidWarned (JValue.obj kvs) = true
      ∨ questionInvalidWarned (JValue.obj kvs) = true
      ∨ entitiesInvalidWarned (JValue.obj kvs) = true) :
    validateKeywordResult (JValue.obj kvs) = true ∧
    jGet (buildGeminiResult (JValue.obj kvs) refs ct lang) (("lsiKeywords").toList)
      = jGet (JValue.obj kvs) (("lsiKeywords").toList) ∧
    jGet (buildGeminiResult (JValue.obj kvs) refs ct lang) (("questionKeywords").toList)
      = jGet (JValue.obj kvs) (("questionKeywords").toList) ∧
    jGet (buildGeminiResult (JValue.obj kvs) refs ct lang) (("entities").toList)
      = jGet (JValue.obj kvs) (("entities").toList) := by
  refine ⟨?_,
    jGet_buildGeminiResult_ne kvs refs ct lang _ (by decide) (by decide) (by decide),
    jGet_buildGeminiResult_ne kvs refs ct lang _ (by decide) (by decide) (by decide),
    jGet_buildGeminiResult_ne kvs refs ct lang _ (by decide) (by decide) (by decide)⟩
  rw [validateKeywordResult_obj]
  exact hcore

/-- Witness for the amended C2 theorem at `okDataBadLsi`. -/
theorem c2_optional_invalid_carried_through_witness :
    validateKeywordResult okDataBadLsi = true ∧
    jGet (buildGeminiResult okDataBadLsi (JValue.arr []) (JValue.str ['n']) (JValue.str ['e']))
        (("lsiKeywords").toList)
      = jGet okDataBadLsi (("lsiKeywords").toList) ∧
    jGet (buildGeminiResult okDataBadLsi (JValue.arr []) (JValue.str ['n']) (JValue.str ['e']))
        (("questionKeywords").toList)
      = jGet okDataBadLsi (("questionKeywords").toList) ∧
    jGet (buildGeminiResult okDataBadLsi (JValue.arr []) (JValue.str ['n']) (JValue.str ['e']))
        (("entities").toList)
      = jGet okDataBadLsi (("entities").toList) := by
  have h := c2_optional_invalid_carried_through
    [(("primary").toList, JValue.arr [kwItem ['a'] ['b']]),
     (("secondary").toList, JValue.arr [kwItem ['c'] ['d'], kwItem ['e'] ['f']]),
     (("longtail").toList, JValue.arr [kwItem ['g'] ['h'], kwItem ['i'] ['j'], kwItem ['k'] ['l']]),
     (("competitorInsights").toList, JValue.str ['x']),
     (("lsiKeywords").toList, JValue.arr [wsTermItem])]
    (JValue.arr []) (JValue.str ['n']) (JValue.str ['e']) rfl (Or.inl rfl)
  exact h

/-- Claim C3 (counterexample).  An object accepted as a whole by
`validateKeywordResult` can carry, in its optional `lsiKeywords` category, a
keyword item whose `term` is all-whitespace: optional-category invalidity
does not reject the result. -/
theorem c3_whitespace_term_accepted_cex :
    validateKeywordResult okDataBadLsi = true
    ∧ jGet okDataBadLsi (("lsiKeywords").toList) = some (JValue.arr [wsTermItem])
    ∧ jGet wsTermItem (("term").toList) = some (JValue.str [' '])
    ∧ trimWs [' '] = [] :=
  ⟨rfl, rfl, rfl, rfl⟩

/-- Claim C3 (amended).  For every parsed object accepted by
`validateKeywordResult`, every keyword item in every *required* category
(primary, secondary, longtail) has a term and a rationale that are non-empty
strings after whitespace trimming.  (For optional categories the source only
warns, so the guarantee does not extend to them.) -/
theorem c3_required_items_nonempty (d : JValue)
    (h : validateKeywordResult d = true) :
    (∃ xs, jGet d (("primary").toList) = some (JValue.arr xs) ∧
      ∀ it ∈ xs, keywordItemNonempty it) ∧
    (∃ ys, jGet d (("secondary").toList) = some (JValue.arr ys) ∧
      ∀ it ∈ ys, keywordItemNonempty it) ∧
    (∃ zs, jGet d (("longtail").toList) = some (JValue.arr zs) ∧
      ∀ it ∈ zs, keywordItemNonempty it) := by
  have hcore : coreValid d = true := by
    unfold validateKeywordResult at h
    split at h
    · exact h
    · exact absurd h (by simp)
  obtain ⟨h1, h2, h3⟩ := coreValid_decomp d hcore
  obtain ⟨xs, hx, _, _, hvx⟩ := validateKeywordArray_required_spec _ _ _ h1
  obtain ⟨ys, hy, _, _, hvy⟩ := validateKeywordArray_required_spec _ _ _ h2
  obtain ⟨zs, hz, _, _, hvz⟩ := validateKeywordArray_required_spec _ _ _ h3
  exact ⟨⟨xs, hx, fun it hit => validItem_spec it (hvx it hit)⟩,
         ⟨ys, hy, fun it hit => validItem_spec it (hvy it hit)⟩,
         ⟨zs, hz, fun it hit => validItem_spec it (hvz it hit)⟩⟩

/-- Witness for the amended C3 theorem at `okData`. -/
theorem c3_required_items_nonempty_witness :
    (∃ xs, jGet okData (("primary").toList) = some (JValue.arr xs) ∧
      ∀ it ∈ xs, keywordItemNonempty it) ∧
    (∃ ys, jGet okData (("secondary").toList) = some (JValue.arr ys) ∧
      ∀ it ∈ ys, keywordItemNonempty it) ∧
    (∃ zs, jGet okData (("longtail").toList) = some (JValue.arr zs) ∧
      ∀ it ∈ zs, keywordItemNonempty it) :=
  c3_required_items_nonempty okData rfl

/-- Claim C6.  `validateKeywordResult` rejects any object whose `primary`
array is empty (the configured minimum is 1), and accepts arrays lying
exactly on the configured minimum or maximum boundary (primary 1/10,
secondary 2/20, longtail 3/30 - both ends inclusive), provided every element
has a valid term and rationale and `competitorInsights` is a non-empty
string. -/
theorem c6_boundary_acceptance (xs ys zs : List JValue) (ci : List Char)
    (hx : xs.length = 1 ∨ xs.length = 10)
    (hy : ys.length = 2 ∨ ys.length = 20)
    (hz : zs.length = 3 ∨ zs.length = 30)
    (hvx : ∀ it ∈ xs, validItem it = true)
    (hvy : ∀ it ∈ ys, validItem it = true)
    (hvz : ∀ it ∈ zs, validItem it = true)
    (hci : trimWs ci ≠ []) :
    validateKeywordResult (mkCoreResult xs ys zs ci) = true ∧
    ∀ d : JValue, jGet d (("primary").toList) = some (JValue.arr []) →
      validateKeywordResult d = false := by
  constructor
  · have hgx : jGet (mkCoreResult xs ys zs ci) (("primary").toList)
        = some (JValue.arr xs) := rfl
    have hgy : jGet (mkCoreResult xs ys zs ci) (("secondary").toList)
        = some (JValue.arr ys) := rfl
    have hgz : jGet (mkCoreResult xs ys zs ci) (("longtail").toList)
        = some (JValue.arr zs) := rfl
    have hgc : jGet (mkCoreResult xs ys zs ci) (("competitorInsights").toList)
        = some (JValue.str ci) := rfl
    have hresult : validateKeywordResult (mkCoreResult xs ys zs ci)
        = coreValid (mkCoreResult xs ys zs ci) := rfl
    rw [hresult]
    unfold coreValid
    rw [hgx, hgy, hgz, hgc]
    have hlen : (trimWs ci).length ≠ 0 := fun hc => hci (List.length_eq_zero.mp hc)
    have east : ∀ (ws : List JValue) (lo hi : Nat), lo ≤ ws.length → ws.length ≤ hi →
        (∀ it ∈ ws, validItem it = true) →
        validateKeywordArray (some (JValue.arr ws)) lo hi true = true := by
      intro ws lo hi hlo hhi hv
      change (if ws.length < lo ∨ hi < ws.length then false else ws.all validItem) = true
      rw [if_neg (by omega)]
      exact List.all_eq_true.mpr hv
    rw [east xs 1 10 (by omega) (by omega) hvx,
      east ys 2 20 (by omega) (by omega) hvy,
      east zs 3 30 (by omega) (by omega) hvz]
    have hd : decide (0 < (trimWs ci).length) = true := by
      simp only [decide_eq_true_eq]
      omega
    simp [hd]
  · intro d hd
    match d with
    | JValue.obj kvs =>
      rw [validateKeywordResult_obj]
      unfold coreValid
      rw [hd]
      have : validateKeywordArray (some (JValue.arr ([] : List JValue))) 1 10 true
          = false := rfl
      rw [this]
      simp
    | JValue.null | JValue.bool _ | JValue.num _ | JValue.str _ | JValue.arr _ =>
      simp [jGet] at hd

/-- Witness for the C6 theorem at concrete boundary inputs (primary at the
minimum 1, secondary at the maximum 20, longtail at the minimum 3). -/
theorem c6_boundary_acceptance_witness :
    validateKeywordResult
        (mkCoreResult [kwItem ['a'] ['b']]
          (List.replicate 20 (kwItem ['c'] ['d']))
          [kwItem ['g'] ['h'], kwItem ['i'] ['j'], kwItem ['k'] ['l']] ['x']) = true ∧
    ∀ d : JValue, jGet d (("primary").toList) = some (JValue.arr []) →
      validateKeywordResult d = false :=
  c6_boundary_acceptance _ _ _ _
    (Or.inl rfl) (Or.inr rfl) (Or.inl rfl)
    (by decide) (by decide) (by decide) (by decide)

/-! ## Strategy 3 / strategy 4 lemmas -/

theorem takeToLast_eq_nil_iff (c : Char) (l : List Char) :
    takeToLast c l = [] ↔ c ∉ l := by
  unfold takeToLast
  rw [List.reverse_eq_nil_iff, List.dropWhile_eq_nil_iff]
  constructor
  · intro h hmem
    have := h c (by simpa using hmem)
    simp at this
  · intro h x hx
    simp only [decide_eq_true_eq]
    intro hxc
    exact h (by simpa [hxc] using (List.mem_reverse.mp hx))

theorem objectMatch_none_iff (t : List Char) :
    objectMatch t = none ↔ '}' ∉ t.dropWhile (fun x => x ≠ '{') := by
  unfold objectMatch
  constructor
  · intro h
    by_cases hv : takeToLast '}' (t.dropWhile (fun x => x ≠ '{')) = []
    · exact (takeToLast_eq_nil_iff _ _).mp hv
    · rw [if_neg hv] at h
      exact absurd h (by simp)
  · intro h
    rw [if_pos ((takeToLast_eq_nil_iff _ _).mpr h)]

theorem braceSpanAfterWs_some (u g : List Char) (h : braceSpanAfterWs u = some g) :
    ∃ m, m <:+ u ∧ m.head? = some '{' ∧ '}' ∈ m := by
  unfold braceSpanAfterWs at h
  split at h
  case _ rest heq =>
    refine ⟨'{' :: rest, ?_, rfl, ?_⟩
    · rw [← heq]; exact List.dropWhile_suffix _
    · by_cases hv : takeToLast '}' ('{' :: rest) = []
      · rw [if_pos hv] at h; exact absurd h (by simp)
      · exact of_not_not (fun hmem => hv ((takeToLast_eq_nil_iff _ _).mpr hmem))
  case _ => exact absurd h (by simp)

theorem stripCi_suffix (p l u : List Char) (h : stripCi p l = some u) : u <:+ l := by
  unfold stripCi at h
  split at h
  · cases h; exact List.drop_suffix _ _
  · exact absurd h (by simp)

theorem foldr_prefixes_some (ps : List (List Char)) (l g : List Char)
    (h : ps.foldr (fun p acc =>
        match (stripCi p l).bind braceSpanAfterWs with
        | some gg => some gg
        | none => acc) none = some g) :
    ∃ u, u <:+ l ∧ braceSpanAfterWs u = some g := by
  induction ps with
  | nil => simp at h
  | cons p ps ih =>
    simp only [List.foldr_cons] at h
    cases hs : (stripCi p l).bind braceSpanAfterWs with
    | some gg =>
      rw [hs] at h
      cases h
      obtain ⟨u, hu, hb⟩ := Option.bind_eq_some.mp hs
      exact ⟨u, stripCi_suffix p l u hu, hb⟩
    | none =>
      rw [hs] at h
      exact ih h

theorem strat4At_some (l g : List Char) (h : strat4At l = some g) :
    ∃ u, u <:+ l ∧ braceSpanAfterWs u = some g := by
  unfold strat4At at h
  cases hf : s4Prefixes.foldr (fun p acc =>
      match (stripCi p l).bind braceSpanAfterWs with
      | some gg => some gg
      | none => acc) none with
  | some gg =>
    rw [hf] at h
    dsimp only [Option.orElse] at h
    cases h
    exact foldr_prefixes_some s4Prefixes l _ hf
  | none =>
    rw [hf] at h
    dsimp only [Option.orElse] at h
    exact ⟨l, List.suffix_rfl, h⟩

theorem strat4_some (t g : List Char) (h : strat4 t = some g) :
    ∃ m, m <:+ t ∧ m.head? = some '{' ∧ '}' ∈ m := by
  induction t with
  | nil => simp [strat4] at h
  | cons c rest ih =>
    unfold strat4 at h
    cases hat : strat4At (c :: rest) with
    | some gg =>
      rw [hat] at h
      obtain ⟨u, hu, hb⟩ := strat4At_some _ _ hat
      obtain ⟨m, hm, hh, hmem⟩ := braceSpanAfterWs_some _ _ hb
      exact ⟨m, hm.trans hu, hh, hmem⟩
    | none =>
      rw [hat] at h
      obtain ⟨m, hm, hh, hmem⟩ := ih h
      exact ⟨m, hm.trans (List.suffix_cons c rest), hh, hmem⟩

theorem suffix_dropWhile_of_head_brace (t m : List Char)
    (hm : m <:+ t) (hh : m.head? = some '{') :
    m <:+ t.dropWhile (fun x => x ≠ '{') := by
  induction t with
  | nil =>
    have := List.eq_nil_of_suffix_nil hm
    subst this
    simp at hh
  | cons c t' ih =>
    rcases List.suffix_cons_iff.mp hm with hfull | htail
    · subst hfull
      have hc : c = '{' := by simpa using hh
      subst hc
      rw [List.dropWhile_cons_of_neg (by simp)]
    · by_cases hc : c = '{'
      · subst hc
        rw [List.dropWhile_cons_of_neg (by simp)]
        exact htail.trans (List.suffix_cons _ _)
      · rw [List.dropWhile_cons_of_pos (by simpa using hc)]
        exact ih htail

theorem strat4_none_of_objectMatch_none (t : List Char)
    (h : objectMatch t = none) : strat4 t = none := by
  cases hs : strat4 t with
  | none => rfl
  | some g =>
    obtain ⟨m, hm, hh, hmem⟩ := strat4_some t g hs
    have hin : '}' ∈ t.dropWhile (fun x => x ≠ '{') :=
      (suffix_dropWhile_of_head_brace t m hm hh).subset hmem
    exact absurd hin ((objectMatch_none_iff t).mp h)

/-! ## Parser consumption lemmas -/

theorem getLast?_append_some (l l' : List Char) (b : Char)
    (h : l'.getLast? = some b) : (l ++ l').getLast? = some b := by
  cases hl' : l'.reverse with
  | nil =>
    rw [List.reverse_eq_nil_iff] at hl'
    subst hl'
    simp at h
  | cons a t =>
    have hhead : l'.reverse.head? = some b := by
      rw [← List.head?_reverse] at h
      exact h
    rw [← List.head?_reverse]
    rw [List.reverse_append]
    cases hl'' : l'.reverse with
    | nil => rw [hl''] at hl'; simp at hl'
    | cons a' t' =>
      rw [hl''] at hhead
      simp at hhead
      simp [hhead]

theorem skipWs_suffix (l : List Char) : skipWs l <:+ l :=
  List.dropWhile_suffix _

theorem skipWs_decomp (l : List Char) :
    ∃ w, l = w ++ skipWs l ∧ ∀ c ∈ w, isJsonWs c = true :=
  exists_dropWhile_decomp isJsonWs l

theorem stripLit_suffix : ∀ (p l r : List Char), stripLit p l = some r → r <:+ l := by
  intro p
  induction p with
  | nil =>
    intro l r h
    unfold stripLit at h
    cases h
    exact List.suffix_rfl
  | cons x ps ih =>
    intro l r h
    cases l with
    | nil => simp [stripLit] at h
    | cons c cs =>
      unfold stripLit at h
      split at h
      · exact (ih cs r h).trans (List.suffix_cons c cs)
      · exact absurd h (by simp)

theorem parseStringBody_suffix : ∀ (fuel : Nat) (l s r : List Char),
    parseStringBody fuel l = some (s, r) → r <:+ l := by
  intro fuel
  induction fuel with
  | zero => intro l s r h; simp [parseStringBody] at h
  | succ fuel ih =>
    intro l s r h
    cases l with
    | nil => simp [parseStringBody] at h
    | cons c rest =>
      simp only [parseStringBody] at h
      by_cases h1 : c = '"'
      · rw [if_pos h1] at h
        cases h
        exact List.suffix_cons _ _
      · rw [if_neg h1] at h
        by_cases h2 : c = '\\'
        · rw [if_pos h2] at h
          cases rest with
          | nil => simp at h
          | cons e rest2 =>
            dsimp only at h
            by_cases h3 : e = 'u'
            · rw [if_pos h3] at h
              cases rest2 with
              | nil => simp at h
              | cons x1 t1 =>
                cases t1 with
                | nil => simp at h
                | cons x2 t2 =>
                  cases t2 with
                  | nil => simp at h
                  | cons x3 t3 =>
                    cases t3 with
                    | nil => simp at h
                    | cons x4 rest3 =>
                      dsimp only at h
                      cases hx1 : hexVal x1 with
                      | none => rw [hx1] at h; simp at h
                      | some a =>
                        cases hx2 : hexVal x2 with
                        | none => rw [hx1, hx2] at h; simp at h
                        | some b =>
                          cases hx3 : hexVal x3 with
                          | none => rw [hx1, hx2, hx3] at h; simp at h
                          | some cc =>
                            cases hx4 : hexVal x4 with
                            | none => rw [hx1, hx2, hx3, hx4] at h; simp at h
                            | some d =>
                              rw [hx1, hx2, hx3, hx4] at h
                              cases hrec : parseStringBody fuel rest3 with
                              | none => rw [hrec] at h; simp at h
                              | some pr =>
                                rw [hrec] at h
                                cases pr with
                                | mk s' r' =>
                                  cases h
                                  refine (ih rest3 _ _ hrec).trans ?_
                                  refine List.IsSuffix.trans ?_ (List.suffix_cons c (e :: x1 :: x2 :: x3 :: x4 :: rest3))
                                  refine List.IsSuffix.trans ?_ (List.suffix_cons e (x1 :: x2 :: x3 :: x4 :: rest3))
                                  exact ((((List.suffix_cons x4 rest3).trans
                                    (List.suffix_cons x3 _)).trans
                                    (List.suffix_cons x2 _)).trans
                                    (List.suffix_cons x1 _))
            · rw [if_neg h3] at h
              cases hesc : escDecode e with
              | none => rw [hesc] at h; simp at h
              | some d =>
                rw [hesc] at h
                cases hrec : parseStringBody fuel rest2 with
                | none => rw [hrec] at h; simp at h
                | some pr =>
                  rw [hrec] at h
                  cases pr with
                  | mk s' r' =>
                    cases h
                    exact ((ih rest2 _ _ hrec).trans
                      (List.suffix_cons e rest2)).trans (List.suffix_cons c (e :: rest2))
        · rw [if_neg h2] at h
          by_cases h4 : c.toNat < 32
          · rw [if_pos h4] at h; simp at h
          · rw [if_neg h4] at h
            cases hrec : parseStringBody fuel rest with
            | none => rw [hrec] at h; simp at h
            | some pr =>
              rw [hrec] at h
              cases pr with
              | mk s' r' =>
                cases h
                exact (ih rest _ _ hrec).trans (List.suffix_cons c rest)

theorem intDigits_suffix (l ip r : List Char) (h : intDigits l = some (ip, r)) :
    r <:+ l := by
  cases l with
  | nil => simp [intDigits] at h
  | cons c rest =>
    unfold intDigits at h
    dsimp only at h
    by_cases h0 : c = '0'
    · rw [if_pos h0] at h
      cases h
      exact List.suffix_cons _ _
    · rw [if_neg h0] at h
      by_cases hd : isDigitCh c = true
      · rw [if_pos hd] at h
        cases h
        exact (List.dropWhile_suffix _).trans (List.suffix_cons _ _)
      · rw [if_neg hd] at h
        simp at h

theorem fracPart_suffix (l fp r : List Char) (h : fracPart l = some (fp, r)) :
    r <:+ l := by
  cases l with
  | nil =>
    unfold fracPart at h
    dsimp only at h
    cases h
    exact List.suffix_rfl
  | cons c rest =>
    unfold fracPart at h
    dsimp only at h
    by_cases hdot : c = '.'
    · rw [if_pos hdot] at h
      by_cases hds : rest.takeWhile isDigitCh = []
      · rw [if_pos hds] at h
        simp at h
      · rw [if_neg hds] at h
        cases h
        exact (List.dropWhile_suffix _).trans (List.suffix_cons _ _)
    · rw [if_neg hdot] at h
      cases h
      exact List.suffix_rfl

theorem expPart_suffix (l ep r : List Char) (h : expPart l = some (ep, r)) :
    r <:+ l := by
  cases l with
  | nil =>
    unfold expPart at h
    dsimp only at h
    cases h
    exact List.suffix_rfl
  | cons e rest =>
    unfold expPart at h
    dsimp only at h
    by_cases he : e = 'e' ∨ e = 'E'
    · rw [if_pos he] at h
      cases rest with
      | nil =>
        simp at h
      | cons a rr =>
        dsimp only at h
        by_cases hp : a = '+'
        · rw [if_pos hp] at h
          dsimp only at h
          by_cases hds : rr.takeWhile isDigitCh = []
          · rw [if_pos hds] at h; simp at h
          · rw [if_neg hds] at h
            cases h
            exact ((List.dropWhile_suffix _).trans (List.suffix_cons _ _)).trans
              (List.suffix_cons _ _)
        · rw [if_neg hp] at h
          by_cases hm : a = '-'
          · rw [if_pos hm] at h
            dsimp only at h
            by_cases hds : rr.takeWhile isDigitCh = []
            · rw [if_pos hds] at h; simp at h
            · rw [if_neg hds] at h
              cases h
              exact ((List.dropWhile_suffix _).trans (List.suffix_cons _ _)).trans
                (List.suffix_cons _ _)
          · rw [if_neg hm] at h
            dsimp only at h
            by_cases hds : (a :: rr).takeWhile isDigitCh = []
            · rw [if_pos hds] at h; simp at h
            · rw [if_neg hds] at h
              cases h
              exact (List.dropWhile_suffix _).trans (List.suffix_cons _ _)
    · rw [if_neg he] at h
      cases h
      exact List.suffix_rfl

theorem parseNumberLit_suffix (l lit r : List Char)
    (h : parseNumberLit l = some (lit, r)) : r <:+ l := by
  have main : ∀ l1 neg, (match intDigits l1 with
      | none => none
      | some (ip, l2) =>
        match fracPart l2 with
        | none => none
        | some (fp, l3) =>
          match expPart l3 with
          | none => none
          | some (ep, l4) => some (neg ++ ip ++ fp ++ ep, l4)) = some (lit, r) →
      r <:+ l1 := by
    intro l1 neg hm
    cases hi : intDigits l1 with
    | none => rw [hi] at hm; simp at hm
    | some p1 =>
      rw [hi] at hm
      cases p1 with
      | mk ip l2 =>
        dsimp only at hm
        cases hf : fracPart l2 with
        | none => rw [hf] at hm; simp at hm
        | some p2 =>
          rw [hf] at hm
          cases p2 with
          | mk fp l3 =>
            dsimp only at hm
            cases hx : expPart l3 with
            | none => rw [hx] at hm; simp at hm
            | some p3 =>
              rw [hx] at hm
              cases p3 with
              | mk ep l4 =>
                dsimp only at hm
                cases hm
                exact ((expPart_suffix l3 ep _ hx).trans
                  (fracPart_suffix l2 fp l3 hf)).trans
                  (intDigits_suffix l1 ip l2 hi)
  unfold parseNumberLit at h
  cases l with
  | nil =>
    dsimp only at h
    exact main [] [] h
  | cons c rest =>
    dsimp only at h
    by_cases hneg : c = '-'
    · rw [if_pos hneg] at h
      dsimp only at h
      exact (main rest ['-'] h).trans (List.suffix_cons _ _)
    · rw [if_neg hneg] at h
      dsimp only at h
      exact main (c :: rest) [] h

/-- Consumption facts for the three mutually recursive parser functions: the
unconsumed rest is a suffix of the input, and a parse producing an object -
and any successful `parseMembers` call - consumes a chunk ending in `}`. -/
theorem parse_consume : ∀ fuel : Nat,
    (∀ i v r, parseValue fuel i = some (v, r) →
      r <:+ i ∧ ∀ kvs, v = JValue.obj kvs →
        ∃ pre, i = pre ++ r ∧ pre.getLast? = some '}') ∧
    (∀ i kvs r, parseMembers fuel i = some (kvs, r) →
      ∃ pre, i = pre ++ r ∧ pre.getLast? = some '}') ∧
    (∀ i xs r, parseElements fuel i = some (xs, r) → r <:+ i) := by
  intro fuel
  induction fuel with
  | zero =>
    refine ⟨?_, ?_, ?_⟩ <;> intro i _ r h <;>
      simp [parseValue, parseMembers, parseElements] at h
  | succ fuel ih =>
    obtain ⟨ihV, ihM, ihE⟩ := ih
    refine ⟨?_, ?_, ?_⟩
    · -- parseValue
      intro i v r h
      cases i with
      | nil => simp [parseValue] at h
      | cons c rest =>
        unfold parseValue at h
        by_cases h1 : c = '{'
        · rw [if_pos h1] at h
          cases hsw : skipWs rest with
          | nil => rw [hsw] at h; simp at h
          | cons c2 r2 =>
            rw [hsw] at h
            dsimp only at h
            have hsfx : (c2 :: r2) <:+ rest := by
              rw [← hsw]; exact skipWs_suffix rest
            obtain ⟨w, hw, _⟩ := skipWs_decomp rest
            rw [hsw] at hw
            by_cases h2 : c2 = '}'
            · rw [if_pos h2] at h
              cases h
              subst h2
              constructor
              · exact ((List.suffix_cons _ _).trans hsfx).trans (List.suffix_cons _ _)
              · intro kvs hkvs
                refine ⟨c :: w ++ ['}'], ?_, ?_⟩
                · rw [hw]; simp
                · rw [show (c :: w ++ ['}'] : List Char) = (c :: w) ++ ['}'] by simp]
                  exact List.getLast?_concat _
            · rw [if_neg h2] at h
              cases hm : parseMembers fuel (c2 :: r2) with
              | none => rw [hm] at h; simp at h
              | some pm =>
                rw [hm] at h
                cases pm with
                | mk kvs2 r3 =>
                  cases h
                  obtain ⟨pre, hpre, hlast⟩ := ihM (c2 :: r2) kvs2 _ hm
                  constructor
                  · refine List.IsSuffix.trans ?_ (List.suffix_cons c rest)
                    rw [hw, hpre]
                    exact ⟨w ++ pre, by simp⟩
                  · intro kvs hkvs
                    refine ⟨c :: w ++ pre, ?_, ?_⟩
                    · rw [hw, hpre]; simp
                    · rw [show (c :: w ++ pre : List Char) = (c :: w) ++ pre by simp]
                      exact getLast?_append_some _ pre _ hlast
        · rw [if_neg h1] at h
          by_cases h2 : c = '['
          · rw [if_pos h2] at h
            cases hsw : skipWs rest with
            | nil => rw [hsw] at h; simp at h
            | cons c2 r2 =>
              rw [hsw] at h
              dsimp only at h
              have hsfx : (c2 :: r2) <:+ rest := by
                rw [← hsw]; exact skipWs_suffix rest
              by_cases hb : c2 = ']'
              · rw [if_pos hb] at h
                cases h
                refine ⟨((List.suffix_cons _ _).trans hsfx).trans (List.suffix_cons _ _), ?_⟩
                intro kvs hkvs
                exact absurd hkvs (by simp)
              · rw [if_neg hb] at h
                cases he2 : parseElements fuel (c2 :: r2) with
                | none => rw [he2] at h; simp at h
                | some pe =>
                  rw [he2] at h
                  cases pe with
                  | mk xs2 r3 =>
                    cases h
                    refine ⟨((ihE _ _ _ he2).trans hsfx).trans (List.suffix_cons _ _), ?_⟩
                    intro kvs hkvs
                    exact absurd hkvs (by simp)
          · rw [if_neg h2] at h
            by_cases h3 : c = '"'
            · rw [if_pos h3] at h
              cases hsb : parseStringBody (rest.length + 1) rest with
              | none => rw [hsb] at h; simp at h
              | some ps =>
                rw [hsb] at h
                cases ps with
                | mk s1 r1 =>
                  cases h
                  refine ⟨(parseStringBody_suffix _ rest s1 _ hsb).trans
                    (List.suffix_cons _ _), ?_⟩
                  intro kvs hkvs
                  exact absurd hkvs (by simp)
            · rw [if_neg h3] at h
              by_cases h4 : c = 't'
              · rw [if_pos h4] at h
                cases hst : stripLit ['r', 'u', 'e'] rest with
                | none => rw [hst] at h; simp at h
                | some r1 =>
                  rw [hst] at h
                  cases h
                  refine ⟨(stripLit_suffix _ rest _ hst).trans (List.suffix_cons _ _), ?_⟩
                  intro kvs hkvs
                  exact absurd hkvs (by simp)
              · rw [if_neg h4] at h
                by_cases h5 : c = 'f'
                · rw [if_pos h5] at h
                  cases hst : stripLit ['a', 'l', 's', 'e'] rest with
                  | none => rw [hst] at h; simp at h
                  | some r1 =>
                    rw [hst] at h
                    cases h
                    refine ⟨(stripLit_suffix _ rest _ hst).trans (List.suffix_cons _ _), ?_⟩
                    intro kvs hkvs
                    exact absurd hkvs (by simp)
                · rw [if_neg h5] at h
                  by_cases h6 : c = 'n'
                  · rw [if_pos h6] at h
                    cases hst : stripLit ['u', 'l', 'l'] rest with
                    | none => rw [hst] at h; simp at h
                    | some r1 =>
                      rw [hst] at h
                      cases h
                      refine ⟨(stripLit_suffix _ rest _ hst).trans (List.suffix_cons _ _), ?_⟩
                      intro kvs hkvs
                      exact absurd hkvs (by simp)
                  · rw [if_neg h6] at h
                    cases hn : parseNumberLit (c :: rest) with
                    | none => rw [hn] at h; simp at h
                    | some pn =>
                      rw [hn] at h
                      cases pn with
                      | mk lit r1 =>
                        cases h
                        refine ⟨parseNumberLit_suffix (c :: rest) lit _ hn, ?_⟩
                        intro kvs hkvs
                        exact absurd hkvs (by simp)
    · -- parseMembers
      intro i kvs r h
      cases i with
      | nil => simp [parseMembers] at h
      | cons c rest =>
        unfold parseMembers at h
        dsimp only at h
        by_cases h1 : c = '"'
        case neg => rw [if_neg h1] at h; simp at h
        case pos =>
        rw [if_pos h1] at h
        subst h1
        cases hsb : parseStringBody (rest.length + 1) rest with
        | none => rw [hsb] at h; simp at h
        | some ps =>
          rw [hsb] at h
          cases ps with
          | mk key r1 =>
            dsimp only at h
            obtain ⟨A, hA⟩ := parseStringBody_suffix _ rest key r1 hsb
            obtain ⟨B, hB, _⟩ := skipWs_decomp r1
            cases hsw1 : skipWs r1 with
            | nil => rw [hsw1] at h; simp at h
            | cons c2 r2 =>
              rw [hsw1] at h
              rw [hsw1] at hB
              dsimp only at h
              by_cases h2 : c2 = ':'
              case neg => rw [if_neg h2] at h; simp at h
              case pos =>
              rw [if_pos h2] at h
              subst h2
              cases hv : parseValue fuel (skipWs r2) with
              | none => rw [hv] at h; simp at h
              | some pv =>
                rw [hv] at h
                cases pv with
                | mk v r3 =>
                  dsimp only at h
                  obtain ⟨C, hC, _⟩ := skipWs_decomp r2
                  obtain ⟨D, hD⟩ := (ihV _ v r3 hv).1
                  obtain ⟨E, hE, _⟩ := skipWs_decomp r3
                  cases hsw3 : skipWs r3 with
                  | nil => rw [hsw3] at h; simp at h
                  | cons c3 r4 =>
                    rw [hsw3] at h
                    rw [hsw3] at hE
                    dsimp only at h
                    by_cases h3 : c3 = ','
                    · rw [if_pos h3] at h
                      subst h3
                      cases hm : parseMembers fuel (skipWs r4) with
                      | none => rw [hm] at h; simp at h
                      | some pm =>
                        rw [hm] at h
                        cases pm with
                        | mk kvs5 r5 =>
                          cases h
                          obtain ⟨F, hF, _⟩ := skipWs_decomp r4
                          obtain ⟨pre', hpre', hlast'⟩ := ihM (skipWs r4) kvs5 _ hm
                          refine ⟨('"' :: A) ++ B ++ [':'] ++ C ++ D ++ E ++ [','] ++ F ++ pre',
                            ?_, ?_⟩
                          · simp only [List.cons_append, List.append_assoc,
                              List.singleton_append, List.nil_append,
                              List.cons.injEq, true_and]
                            rw [← hpre', ← hF, ← hE, hD, ← hC, ← hB]
                            exact hA.symm
                          · exact getLast?_append_some _ pre' _ hlast'
                    · by_cases h4 : c3 = '}'
                      · rw [if_neg h3, if_pos h4] at h
                        subst h4
                        cases h
                        refine ⟨('"' :: A) ++ B ++ [':'] ++ C ++ D ++ E ++ ['}'], ?_, ?_⟩
                        · simp only [List.cons_append, List.append_assoc,
                            List.singleton_append, List.nil_append,
                            List.cons.injEq, true_and]
                          rw [← hE, hD, ← hC, ← hB]
                          exact hA.symm
                        · rw [show (('"' :: A) ++ B ++ [':'] ++ C ++ D ++ E ++ ['}'] : List Char)
                              = (('"' :: A) ++ B ++ [':'] ++ C ++ D ++ E) ++ ['}'] by simp]
                          exact List.getLast?_concat _
                      · rw [if_neg h3, if_neg h4] at h
                        simp at h
    · -- parseElements
      intro i xs r h
      unfold parseElements at h
      cases hv : parseValue fuel i with
      | none => rw [hv] at h; simp at h
      | some pv =>
        rw [hv] at h
        cases pv with
        | mk v r1 =>
          dsimp only at h
          cases hsw : skipWs r1 with
          | nil => rw [hsw] at h; simp at h
          | cons c2 r2 =>
            rw [hsw] at h
            dsimp only at h
            have hch : (c2 :: r2) <:+ r1 := by rw [← hsw]; exact skipWs_suffix r1
            have hr1 : r1 <:+ i := (ihV _ v r1 hv).1
            by_cases h2 : c2 = ','
            · rw [if_pos h2] at h
              cases he2 : parseElements fuel (skipWs r2) with
              | none => rw [he2] at h; simp at h
              | some pe =>
                rw [he2] at h
                cases pe with
                | mk xs3 r3 =>
                  cases h
                  refine ((((ihE _ _ _ he2).trans (skipWs_suffix r2)).trans
                    (List.suffix_cons _ _)).trans hch).trans hr1
            · rw [if_neg h2] at h
              by_cases h3 : c2 = ']'
              · rw [if_pos h3] at h
                cases h
                exact ((List.suffix_cons _ _).trans hch).trans hr1
              · rw [if_neg h3] at h
                simp at h

/-- A successful parse producing an object can only come from the `{`
branch, so the input starts with `{`. -/
theorem parseValue_obj_head (fuel : Nat) (i : List Char)
    (kvs : List (List Char × JValue)) (r : List Char)
    (h : parseValue fuel i = some (JValue.obj kvs, r)) : ∃ tl, i = '{' :: tl := by
  cases fuel with
  | zero => simp [parseValue] at h
  | succ fuel =>
    cases i with
    | nil => simp [parseValue] at h
    | cons c rest =>
      unfold parseValue at h
      by_cases h1 : c = '{'
      · exact ⟨rest, by rw [h1]⟩
      · exfalso
        rw [if_neg h1] at h
        by_cases h2 : c = '['
        · rw [if_pos h2] at h
          cases hsw : skipWs rest with
          | nil => rw [hsw] at h; simp at h
          | cons c2 r2 =>
            rw [hsw] at h
            dsimp only at h
            by_cases hb : c2 = ']'
            · rw [if_pos hb] at h; simp at h
            · rw [if_neg hb] at h
              cases he : parseElements fuel (c2 :: r2) with
              | none => rw [he] at h; simp at h
              | some pe =>
                rw [he] at h
                cases pe with
                | mk a b => simp at h
        · rw [if_neg h2] at h
          by_cases h3 : c = '"'
          · rw [if_pos h3] at h
            cases hsb : parseStringBody (rest.length + 1) rest with
            | none => rw [hsb] at h; simp at h
            | some ps =>
              rw [hsb] at h
              cases ps with
              | mk a b => simp at h
          · rw [if_neg h3] at h
            by_cases h4 : c = 't'
            · rw [if_pos h4] at h
              cases hst : stripLit ['r', 'u', 'e'] rest with
              | none => rw [hst] at h; simp at h
              | some r1 => rw [hst] at h; simp at h
            · rw [if_neg h4] at h
              by_cases h5 : c = 'f'
              · rw [if_pos h5] at h
                cases hst : stripLit ['a', 'l', 's', 'e'] rest with
                | none => rw [hst] at h; simp at h
                | some r1 => rw [hst] at h; simp at h
              · rw [if_neg h5] at h
                by_cases h6 : c = 'n'
                · rw [if_pos h6] at h
                  cases hst : stripLit ['u', 'l', 'l'] rest with
                  | none => rw [hst] at h; simp at h
                  | some r1 => rw [hst] at h; simp at h
                · rw [if_neg h6] at h
                  cases hn : parseNumberLit (c :: rest) with
                  | none => rw [hn] at h; simp at h
                  | some pn =>
                    rw [hn] at h
                    cases pn with
                    | mk a b => simp at h

/-- JSON whitespace skipping is the identity on a JS-trimmed string. -/
theorem skipWs_trimWs (l : List Char) : skipWs (trimWs l) = trimWs l := by
  apply dropWhile_eq_self_of_head (p := isJsonWs)
  intro c hc
  have hjs := trimWs_head l c hc
  by_contra hne
  rw [Bool.not_eq_false] at hne
  exact absurd (jsonWs_subset_jsWs c hne) (by simp [hjs])

theorem takeToLast_getLast (l : List Char) (c : Char) (h : l.getLast? = some c) :
    takeToLast c l = l := by
  unfold takeToLast
  have hrev : l.reverse.head? = some c := by rw [List.head?_reverse]; exact h
  have hdw : l.reverse.dropWhile (fun x => x ≠ c) = l.reverse := by
    apply dropWhile_eq_self_of_head
    intro x hx
    rw [hrev] at hx
    simp only [Option.mem_def, Option.some_inj] at hx
    subst hx
    simp
  rw [hdw, List.reverse_reverse]

/-- A trimmed string whose `JSON.parse` is an object starts with `{` and
ends with `}`. -/
theorem parseJson_obj_shape (t : List Char) (kvs : List (List Char × JValue))
    (ht : trimWs t = t) (h : parseJson t = some (JValue.obj kvs)) :
    t.head? = some '{' ∧ t.getLast? = some '}' := by
  unfold parseJson at h
  have hskip : skipWs t = t := by
    rw [← ht]
    exact skipWs_trimWs t
  rw [hskip] at h
  cases hv : parseValue (t.length + 1) t with
  | none => rw [hv] at h; simp at h
  | some pv =>
    rw [hv] at h
    cases pv with
    | mk v r =>
      dsimp only at h
      by_cases hr : skipWs r = []
      · rw [if_pos hr] at h
        simp only [Option.some_inj] at h
        subst h
        obtain ⟨tl, htl⟩ := parseValue_obj_head _ _ _ _ hv
        refine ⟨by rw [htl]; rfl, ?_⟩
        obtain ⟨hsfx, hobj⟩ := (parse_consume (t.length + 1)).1 t _ r hv
        obtain ⟨pre, hpre, hlast⟩ := hobj kvs rfl
        have hrws : ∀ c ∈ r, isJsonWs c = true := List.dropWhile_eq_nil_iff.mp hr
        have hrnil : r = [] := by
          cases hgl : r.getLast? with
          | none =>
            cases r with
            | nil => rfl
            | cons a rr => simp at hgl
          | some b =>
            exfalso
            have hbws : isJsWs b = true :=
              jsonWs_subset_jsWs b (hrws b (List.mem_of_mem_getLast? hgl))
            have hglt : t.getLast? = some b := by
              rw [hpre]
              exact getLast?_append_some pre r b hgl
            have := trimWs_last t
            rw [ht] at this
            have hfalse := this b hglt
            rw [hbws] at hfalse
            exact absurd hfalse (by simp)
        rw [hrnil, List.append_nil] at hpre
        rw [hpre]
        exact hlast
      · rw [if_neg hr] at h
        simp at h

/-- The clean-up `geminiCleanup` is the identity when the trimmed text ends in a closing brace. -/
theorem geminiCleanup_eq_of_last_brace (l : List Char)
    (hlast : (trimWs l).getLast? = some '}') : geminiCleanup l = trimWs l := by
  simp only [geminiCleanup]
  rw [if_pos (List.mem_of_mem_getLast? hlast)]
  exact takeToLast_getLast _ _ hlast

/-! ## Fenced-code-block extraction lemmas -/

theorem dropWhile_append_left (p : Char → Bool) (a b : List Char)
    (h : a.dropWhile p ≠ []) : (a ++ b).dropWhile p = a.dropWhile p ++ b := by
  induction a with
  | nil => exact absurd rfl h
  | cons c a' ih =>
    by_cases hc : p c = true
    · rw [List.dropWhile_cons_of_pos hc] at h ⊢
      rw [List.cons_append, List.dropWhile_cons_of_pos hc]
      exact ih h
    · rw [List.dropWhile_cons_of_neg hc]
      rw [List.cons_append, List.dropWhile_cons_of_neg hc]

theorem isPrefixOf_append_self : ∀ (l t : List Char), l.isPrefixOf (l ++ t) = true := by
  intro l t
  induction l with
  | nil => simp [List.isPrefixOf]
  | cons a l ih => simp [List.isPrefixOf, ih]

theorem isJsWs_btick : isJsWs btick = false := by decide

theorem getLast?_cons_of_ne_nil (c : Char) (l : List Char) (h : l ≠ []) :
    (c :: l).getLast? = l.getLast? := by
  cases l with
  | nil => exact absurd rfl h
  | cons d t => rw [List.getLast?_cons_cons]

/-- The pattern `\s*` followed by the fence matches a pure-whitespace run followed by the
fence. -/
theorem closeMatches_ws_fence (w t : List Char) (hw : ∀ c ∈ w, isJsWs c = true) :
    closeMatches (w ++ fence ++ t) = true := by
  unfold closeMatches
  rw [List.append_assoc, dropWhile_append_of_all (fence ++ t) hw]
  rw [show (fence ++ t : List Char) = btick :: (btick :: btick :: t) from rfl]
  rw [List.dropWhile_cons_of_neg (by rw [isJsWs_btick]; simp)]
  exact isPrefixOf_append_self fence _

/-- No premature close: starting inside the group - whose text has no fence
occurrence and whose last character is not whitespace - `\s*` + fence cannot
match. -/
theorem closeMatches_false_of : ∀ (a w t : List Char), a ≠ [] →
    (∀ c ∈ a.getLast?, isJsWs c = false) → ¬ fence <:+: a →
    (∀ c ∈ w, isJsWs c = true) → w ≠ [] →
    closeMatches (a ++ w ++ fence ++ t) = false := by
  intro a
  induction a with
  | nil => intro w t hne; exact absurd rfl hne
  | cons c a' ih =>
    intro w t _ hlast hinf hw hwne
    by_cases hcws : isJsWs c = true
    · have ha' : a' ≠ [] := by
        intro hnil
        subst hnil
        have := hlast c (by simp)
        rw [hcws] at this
        exact absurd this (by simp)
      have hstep : closeMatches ((c :: a') ++ w ++ fence ++ t)
          = closeMatches (a' ++ w ++ fence ++ t) := by
        unfold closeMatches
        rw [show ((c :: a') ++ w ++ fence ++ t : List Char)
            = c :: (a' ++ w ++ fence ++ t) by simp]
        rw [List.dropWhile_cons_of_pos hcws]
      rw [hstep]
      refine ih w t ha' ?_ ?_ hw hwne
      · intro x hx
        apply hlast
        rw [getLast?_cons_of_ne_nil c a' ha']
        exact hx
      · intro hinf'
        exact hinf (hinf'.trans (List.suffix_cons c a').isInfix)
    · unfold closeMatches
      rw [show ((c :: a') ++ w ++ fence ++ t : List Char)
          = c :: (a' ++ w ++ fence ++ t) by simp]
      rw [List.dropWhile_cons_of_neg hcws]
      by_cases hcb : c = btick
      · subst hcb
        cases a' with
        | nil =>
          cases w with
          | nil => exact absurd rfl hwne
          | cons w0 w' =>
            have hw0 : isJsWs w0 = true := hw w0 (by simp)
            have hne : (btick == w0) = false := by
              rw [beq_eq_false_iff_ne]
              intro he
              rw [← he, isJsWs_btick] at hw0
              exact absurd hw0 (by simp)
            simp [fence, List.isPrefixOf, hne]
        | cons d a'' =>
          by_cases hdb : d = btick
          · subst hdb
            cases a'' with
            | nil =>
              cases w with
              | nil => exact absurd rfl hwne
              | cons w0 w' =>
                have hw0 : isJsWs w0 = true := hw w0 (by simp)
                have hne : (btick == w0) = false := by
                  rw [beq_eq_false_iff_ne]
                  intro he
                  rw [← he, isJsWs_btick] at hw0
                  exact absurd hw0 (by simp)
                simp [fence, List.isPrefixOf, hne]
            | cons e a''' =>
              by_cases heb : e = btick
              · subst heb
                exact absurd ⟨[], a''', by simp [fence]⟩ hinf
              · have hne : (btick == e) = false := by
                  rw [beq_eq_false_iff_ne]
                  intro he
                  exact heb he.symm
                simp [fence, List.isPrefixOf, hne]
          · have hne : (btick == d) = false := by
              rw [beq_eq_false_iff_ne]
              intro he
              exact hdb he.symm
            simp [fence, List.isPrefixOf, hne]
      · have hne : (btick == c) = false := by
          rw [beq_eq_false_iff_ne]
          intro he
          exact hcb he.symm
        simp [fence, List.isPrefixOf, hne]

/-- The lazy group stops exactly at the end of the intended group text. -/
theorem findGroup_exact : ∀ (a w t : List Char),
    (∀ c ∈ a.getLast?, isJsWs c = false) → ¬ fence <:+: a →
    (∀ c ∈ w, isJsWs c = true) → w ≠ [] →
    findGroup (a ++ w ++ fence ++ t) = some a := by
  intro a
  induction a with
  | nil =>
    intro w t _ _ hw hwne
    cases w with
    | nil => exact absurd rfl hwne
    | cons w0 w' =>
      have hcm := closeMatches_ws_fence (w0 :: w') t hw
      rw [show (([] : List Char) ++ (w0 :: w') ++ fence ++ t)
          = w0 :: (w' ++ fence ++ t) by simp]
      unfold findGroup
      rw [if_pos ?_]
      have : (w0 :: (w' ++ fence ++ t)) = (w0 :: w') ++ fence ++ t := by simp
      rw [this]
      exact hcm
  | cons c a' ih =>
    intro w t hlast hinf hw hwne
    have hcf : closeMatches ((c :: a') ++ w ++ fence ++ t) = false :=
      closeMatches_false_of (c :: a') w t (by simp) hlast hinf hw hwne
    have hcf' : closeMatches (c :: (a' ++ w ++ fence ++ t)) = false := by
      rw [show (c :: (a' ++ w ++ fence ++ t) : List Char)
          = (c :: a') ++ w ++ fence ++ t by simp]
      exact hcf
    rw [show ((c :: a') ++ w ++ fence ++ t : List Char)
        = c :: (a' ++ w ++ fence ++ t) by simp]
    unfold findGroup
    rw [if_neg (by rw [hcf']; simp)]
    have hrec : findGroup (a' ++ w ++ fence ++ t) = some a' := by
      refine ih w t ?_ ?_ hw hwne
      · intro x hx
        apply hlast
        cases ha' : a' with
        | nil => rw [ha'] at hx; simp at hx
        | cons d a'' =>
          rw [getLast?_cons_of_ne_nil c (d :: a'') (by simp)]
          rw [ha'] at hx
          exact hx
      · intro hinf'
        exact hinf (hinf'.trans (List.suffix_cons c a').isInfix)
    rw [hrec]

/-- A fence at position zero with a matching tail wins the leftmost scan. -/
theorem codeBlockMatch_fence (l g : List Char) (h : fenceTail l = some g) :
    codeBlockMatch (fence ++ l) = some g := by
  show codeBlockMatch (btick :: btick :: btick :: l) = some g
  unfold codeBlockMatch
  have hp : fence.isPrefixOf (btick :: btick :: btick :: l) = true :=
    isPrefixOf_append_self fence l
  rw [if_pos hp]
  rw [show (btick :: btick :: btick :: l : List Char).drop 3 = l from rfl]
  rw [h]

/-- Trimming yields an infix of the original string. -/
theorem trimWs_infix_self (l : List Char) : trimWs l <:+: l := by
  have h1 : trimWs l <+: trimLeft l := by
    obtain ⟨w, hw, _⟩ := trimRight_decomp (trimLeft l)
    exact ⟨w, hw.symm⟩
  have h2 : trimLeft l <:+ l := List.dropWhile_suffix _
  exact h1.isInfix.trans h2.isInfix

/-- The core fence-scanning computation shared by the tagged and untagged
wrappers: after the opening fence material, `\s*` absorbs the newline and
the group's leading whitespace, and the lazy group is exactly the trimmed
inner text. -/
theorem fence_scan (j : List Char)
    (hhead : (trimWs j).head? = some '{')
    (hnf : ¬ fence <:+: trimWs j) :
    closeMatches ('\n' :: (j ++ '\n' :: fence)) = false ∧
    findGroup (('\n' :: (j ++ '\n' :: fence)).dropWhile isJsWs) = some (trimWs j) := by
  obtain ⟨w2, hTL, hw2⟩ : ∃ w2, trimLeft j = trimWs j ++ w2 ∧ ∀ c ∈ w2, isJsWs c = true := by
    obtain ⟨w, hw, hall⟩ := trimRight_decomp (trimLeft j)
    exact ⟨w, hw, hall⟩
  have htlne : trimLeft j ≠ [] := by
    intro hnil
    rw [hnil] at hTL
    have : trimWs j = [] := by
      cases htw : trimWs j with
      | nil => rfl
      | cons a s =>
        rw [htw] at hTL
        simp at hTL
    rw [this] at hhead
    simp at hhead
  have hdw : ('\n' :: (j ++ '\n' :: fence)).dropWhile isJsWs
      = (trimWs j ++ w2) ++ '\n' :: fence := by
    rw [List.dropWhile_cons_of_pos (by decide)]
    rw [dropWhile_append_left isJsWs j ('\n' :: fence) htlne]
    rw [show j.dropWhile isJsWs = trimLeft j from rfl, hTL]
  have harg : ((trimWs j ++ w2) ++ '\n' :: fence : List Char)
      = trimWs j ++ (w2 ++ ['\n']) ++ fence ++ [] := by
    simp [List.append_assoc]
  have hfind : findGroup (('\n' :: (j ++ '\n' :: fence)).dropWhile isJsWs)
      = some (trimWs j) := by
    rw [hdw, harg]
    refine findGroup_exact (trimWs j) (w2 ++ ['\n']) [] (trimWs_last j) hnf ?_ (by simp)
    intro c hc
    rcases List.mem_append.mp hc with hc2 | hc3
    · exact hw2 c hc2
    · simp at hc3
      rw [hc3]
      decide
  refine ⟨?_, hfind⟩
  unfold closeMatches
  rw [hdw]
  cases htw : trimWs j with
  | nil => rw [htw] at hhead; simp at hhead
  | cons hc tj =>
    rw [htw] at hhead
    simp at hhead
    subst hhead
    have hne : (btick == '{') = false := by decide
    simp [fence, List.isPrefixOf, hne]

/-! ## Claim theorems: pure-JSON round trip -/

/-- Claim C4.  For every string that, after trimming, is a valid JSON object
text (so the trimmed string starts with `{`), the extraction pipeline keeps
the whole trimmed text as its candidate (strategy 1), the trailing-brace
truncation is a no-op, and parsing recovers exactly the structure
`JSON.parse` gives on the trimmed string. -/
theorem c4_pure_json_roundtrip (s : List Char) (kvs : List (List Char × JValue))
    (h : parseJson (trimWs s) = some (JValue.obj kvs)) :
    extractCandidate s = some (trimWs s) ∧
    geminiCleanup (trimWs s) = trimWs s ∧
    geminiParsed s = some (JValue.obj kvs) := by
  obtain ⟨hhead, hlast⟩ := parseJson_obj_shape (trimWs s) kvs (trimWs_idem s) h
  have hcand : extractCandidate s = some (trimWs s) := by
    simp only [extractCandidate]
    rw [if_pos hhead]
  have hclean : geminiCleanup (trimWs s) = trimWs s := by
    simp only [geminiCleanup]
    rw [trimWs_idem]
    rw [if_pos (List.mem_of_mem_getLast? hlast)]
    exact takeToLast_getLast _ _ hlast
  refine ⟨hcand, hclean, ?_⟩
  unfold geminiParsed
  rw [hcand]
  simp only [Option.some_bind]
  rw [hclean]
  exact h

set_option maxRecDepth 20000 in
/-- Witness for the C4 theorem on a concrete pure-JSON response with
surrounding whitespace. -/
theorem c4_pure_json_roundtrip_witness :
    extractCandidate (("  \x7b\"a\":1\x7d ").toList)
        = some (trimWs (("  \x7b\"a\":1\x7d ").toList)) ∧
    geminiCleanup (trimWs (("  \x7b\"a\":1\x7d ").toList))
        = trimWs (("  \x7b\"a\":1\x7d ").toList) ∧
    geminiParsed (("  \x7b\"a\":1\x7d ").toList)
        = some (JValue.obj [(['a'], JValue.num ['1'])]) :=
  c4_pure_json_roundtrip _ _ rfl

/-! ## Claim theorems: fenced code blocks -/

set_option maxRecDepth 20000 in
/-- Claim C5 (counterexample).  The valid JSON object text
`\x7b"a":"```"\x7d` parses fine when fed directly, but wrapped in a
`json`-tagged fenced code block the lazy group of strategy 2's regex stops
at the triple backtick inside the string value, the truncated candidate has
no closing brace, and `JSON.parse` fails - so wrapping is not transparent
for every valid JSON object text. -/
theorem c5_fence_inside_string_cex :
    geminiParsed c5inner = some (JValue.obj [(['a'], JValue.str fence)])
    ∧ geminiParsed (wrapTagged c5inner) = none :=
  ⟨rfl, rfl⟩

/-- Claim C5 (amended).  For every valid JSON object text `j` that contains
no triple-backtick substring, feeding the parser `j` wrapped in a fenced
code block - with or without the `json` tag - yields the same parsed object
as feeding `j` directly. -/
theorem c5_fenced_block_roundtrip (j : List Char) (kvs : List (List Char × JValue))
    (hp : parseJson (trimWs j) = some (JValue.obj kvs))
    (hnf : ¬ fence <:+: j) :
    geminiParsed (wrapTagged j) = some (JValue.obj kvs) ∧
    geminiParsed (wrapPlain j) = some (JValue.obj kvs) ∧
    geminiParsed j = some (JValue.obj kvs) := by
  obtain ⟨hhead, hlast⟩ := parseJson_obj_shape (trimWs j) kvs (trimWs_idem j) hp
  have hnf' : ¬ fence <:+: trimWs j := fun hi => hnf (hi.trans (trimWs_infix_self j))
  obtain ⟨hcm, hfg⟩ := fence_scan j hhead hnf'
  have htwne : trimWs j ≠ [] := by
    intro hnil
    rw [hnil] at hhead
    simp at hhead
  have hclean : geminiCleanup (trimWs j) = trimWs j := by
    have h := geminiCleanup_eq_of_last_brace (trimWs j) (by rw [trimWs_idem]; exact hlast)
    rw [trimWs_idem] at h
    exact h
  have hparse_trim : parseJson (geminiCleanup (trimWs j)) = some (JValue.obj kvs) := by
    rw [hclean]
    exact hp
  have hft_tagged : fenceTail (("json\n").toList ++ (j ++ '\n' :: fence))
      = some (trimWs j) := by
    simp only [fenceTail]
    have hjp : (("json").toList).isPrefixOf
        (("json\n").toList ++ (j ++ '\n' :: fence)) = true := by
      simp [List.isPrefixOf]
    rw [if_pos hjp]
    rw [show (("json\n").toList ++ (j ++ '\n' :: fence)).drop 4
        = '\n' :: (j ++ '\n' :: fence) from rfl]
    rw [if_neg (by simp [hcm]), hfg]
  have hft_plain : fenceTail ('\n' :: (j ++ '\n' :: fence)) = some (trimWs j) := by
    simp only [fenceTail]
    have hjp : (("json").toList).isPrefixOf ('\n' :: (j ++ '\n' :: fence)) = false := by
      have hne : (('j' : Char) == '\n') = false := by decide
      simp [List.isPrefixOf, hne]
    rw [if_neg (by simp [hjp])]
    rw [if_neg (by simp [hcm]), hfg]
  have hfence_last : (('\n' : Char) :: fence).getLast? = some btick := by decide
  -- tagged wrapper
  have hshape_t : wrapTagged j = fence ++ (("json\n").toList ++ (j ++ '\n' :: fence)) := by
    simp [wrapTagged, List.append_assoc]
  have hcbm_t : codeBlockMatch (wrapTagged j) = some (trimWs j) := by
    rw [hshape_t]
    exact codeBlockMatch_fence _ _ hft_tagged
  have hhead_t : (wrapTagged j).head? = some btick := by
    rw [hshape_t]
    rfl
  have hlast_t : (wrapTagged j).getLast? = some btick := by
    unfold wrapTagged
    exact getLast?_append_some _ ('\n' :: fence) btick hfence_last
  have htrim_t : trimWs (wrapTagged j) = wrapTagged j := by
    refine trimWs_eq_self ?_ ?_
    · intro c hc
      rw [hhead_t] at hc
      simp only [Option.mem_def, Option.some_inj] at hc
      rw [← hc] at *
      exact isJsWs_btick
    · intro c hc
      rw [hlast_t] at hc
      simp only [Option.mem_def, Option.some_inj] at hc
      rw [← hc] at *
      exact isJsWs_btick
  have hcand_t : extractCandidate (wrapTagged j) = some (trimWs j) := by
    simp only [extractCandidate]
    rw [htrim_t]
    rw [if_neg (by rw [hhead_t]; simp; decide)]
    rw [hcbm_t]
    dsimp only
    rw [if_neg htwne, trimWs_idem]
  -- plain wrapper
  have hcbm_p : codeBlockMatch (wrapPlain j) = some (trimWs j) :=
    codeBlockMatch_fence _ _ hft_plain
  have hhead_p : (wrapPlain j).head? = some btick := rfl
  have hlast_p : (wrapPlain j).getLast? = some btick := by
    unfold wrapPlain
    exact getLast?_append_some _ ('\n' :: fence) btick hfence_last
  have htrim_p : trimWs (wrapPlain j) = wrapPlain j := by
    refine trimWs_eq_self ?_ ?_
    · intro c hc
      rw [hhead_p] at hc
      simp only [Option.mem_def, Option.some_inj] at hc
      rw [← hc] at *
      exact isJsWs_btick
    · intro c hc
      rw [hlast_p] at hc
      simp only [Option.mem_def, Option.some_inj] at hc
      rw [← hc] at *
      exact isJsWs_btick
  have hcand_p : extractCandidate (wrapPlain j) = some (trimWs j) := by
    simp only [extractCandidate]
    rw [htrim_p]
    rw [if_neg (by rw [hhead_p]; simp; decide)]
    rw [hcbm_p]
    dsimp only
    rw [if_neg htwne, trimWs_idem]
  -- direct
  have hcand_d : extractCandidate j = some (trimWs j) := by
    simp only [extractCandidate]
    rw [if_pos hhead]
  refine ⟨?_, ?_, ?_⟩ <;>
    · unfold geminiParsed
      first
      | rw [hcand_t]
      | rw [hcand_p]
      | rw [hcand_d]
      simp only [Option.some_bind]
      exact hparse_trim

set_option maxRecDepth 20000 in
/-- Witness for the amended C5 theorem on a concrete fence-free JSON
object. -/
theorem c5_fenced_block_roundtrip_witness :
    geminiParsed (wrapTagged (("\x7b\"a\":1\x7d").toList))
        = some (JValue.obj [(['a'], JValue.num ['1'])]) ∧
    geminiParsed (wrapPlain (("\x7b\"a\":1\x7d").toList))
        = some (JValue.obj [(['a'], JValue.num ['1'])]) ∧
    geminiParsed (("\x7b\"a\":1\x7d").toList)
        = some (JValue.obj [(['a'], JValue.num ['1'])]) :=
  c5_fenced_block_roundtrip _ _ rfl (by decide)

/-! ## Claim theorems: strategy 4 unreachability -/

/-- Claim C10.  Strategy 4 of the extraction chain is unreachable: whenever
strategy 3's greedy object match fails, strategy 4's optional-prefix pattern
also fails (its capture group still demands a brace span), so the
four-strategy extractor equals the three-strategy one on every input, and
the no-JSON error is raised exactly when strategy 3 fails. -/
theorem c10_strategy4_unreachable (s : List Char) :
    extractCandidate s = extractCandidate3 s ∧
    (objectMatch (trimWs s) = none → strat4 (trimWs s) = none) := by
  refine ⟨?_, strat4_none_of_objectMatch_none (trimWs s)⟩
  simp only [extractCandidate, extractCandidate3]
  by_cases h1 : (trimWs s).head? = some '{'
  · simp only [if_pos h1]
  · simp only [if_neg h1]
    cases h2 : codeBlockMatch (trimWs s) with
    | some g =>
      dsimp only
      by_cases hg : g = []
      · simp only [if_pos hg]
        cases h3 : objectMatch (trimWs s) with
        | some m => dsimp only
        | none =>
          dsimp only
          rw [strat4_none_of_objectMatch_none _ h3]
      · simp only [if_neg hg]
    | none =>
      dsimp only
      cases h3 : objectMatch (trimWs s) with
      | some m => dsimp only
      | none =>
        dsimp only
        rw [strat4_none_of_objectMatch_none _ h3]

/-! ## Scoring / selection lemmas -/

theorem calculateScore_noise (e : HtmlElement) (h : noiseMatch e = true) :
    calculateScore e = -100 := by
  unfold calculateScore
  simp [h]

theorem calculateScore_nonneg (e : HtmlElement) (hn : noiseMatch e = false)
    (hlink : e.linkTextLength ≤ e.totalTextLength) : 0 ≤ calculateScore e := by
  unfold calculateScore
  rw [if_neg (by simp [hn])]
  have hbase : (0 : ℚ) ≤
      ((((e.blockTexts.map (fun b => (trimWs b).length)).filter
          (fun n => 25 < n)).sum : Nat) : ℚ) + 10 * (e.commaCount : ℚ) := by
    positivity
  set total : ℚ := if e.totalTextLength = 0 then 1 else (e.totalTextLength : ℚ) with htotal
  have htpos : 0 < total := by
    rw [htotal]
    split
    · norm_num
    · rename_i hz
      exact_mod_cast Nat.pos_of_ne_zero hz
  have hdens : (e.linkTextLength : ℚ) / total ≤ 1 := by
    rw [div_le_one htpos, htotal]
    split
    · rename_i hz
      rw [hz] at hlink
      exact_mod_cast le_trans (Nat.cast_le.mpr hlink) (by norm_num)
    · exact_mod_cast hlink
  dsimp only
  split
  · rename_i hgt
    have : 0 ≤ 1 - (e.linkTextLength : ℚ) / total := by linarith
    exact mul_nonneg hbase this
  · exact hbase

theorem selectBest_fold (l : List HtmlElement) :
    ∀ acc : HtmlElement × ℚ,
      acc.2 ≤ (l.foldl (fun acc e =>
          let s := calculateScore e
          if acc.2 < s then (e, s) else acc) acc).2 ∧
      (∀ e ∈ l, calculateScore e ≤ (l.foldl (fun acc e =>
          let s := calculateScore e
          if acc.2 < s then (e, s) else acc) acc).2) ∧
      ((l.foldl (fun acc e =>
          let s := calculateScore e
          if acc.2 < s then (e, s) else acc) acc) = acc ∨
        ((l.foldl (fun acc e =>
            let s := calculateScore e
            if acc.2 < s then (e, s) else acc) acc).1 ∈ l ∧
          (l.foldl (fun acc e =>
            let s := calculateScore e
            if acc.2 < s then (e, s) else acc) acc).2
            = calculateScore (l.foldl (fun acc e =>
                let s := calculateScore e
                if acc.2 < s then (e, s) else acc) acc).1)) := by
  induction l with
  | nil => exact fun acc => ⟨le_refl _, by simp, Or.inl rfl⟩
  | cons a t ih =>
    intro acc
    simp only [List.foldl_cons]
    by_cases hlt : acc.2 < calculateScore a
    · simp only [if_pos hlt]
      obtain ⟨ih1, ih2, ih3⟩ := ih (a, calculateScore a)
      refine ⟨le_trans (le_of_lt hlt) ih1, ?_, ?_⟩
      · intro e he
        rcases List.mem_cons.mp he with rfl | hmem
        · exact le_trans ih1 (le_refl _)
        · exact ih2 e hmem
      · rcases ih3 with heq | ⟨hmem, hsc⟩
        · rw [heq]
          exact Or.inr ⟨by simp, rfl⟩
        · exact Or.inr ⟨List.mem_cons_of_mem a hmem, hsc⟩
    · simp only [if_neg hlt]
      obtain ⟨ih1, ih2, ih3⟩ := ih acc
      refine ⟨ih1, ?_, ?_⟩
      · intro e he
        rcases List.mem_cons.mp he with rfl | hmem
        · exact le_trans (le_of_not_lt hlt) ih1
        · exact ih2 e hmem
      · rcases ih3 with heq | ⟨hmem, hsc⟩
        · exact Or.inl heq
        · exact Or.inr ⟨List.mem_cons_of_mem a hmem, hsc⟩

/-! ## Claim theorems: best-container selection avoids noise -/

/-- Claim C8.  For every document whose candidate list contains at least one
candidate that does not match the noise vocabulary and holds a block with
more than 25 non-whitespace characters, the best-container selection never
returns a candidate matching the noise vocabulary: noise candidates score
the -100 sentinel, which can never strictly exceed the running best score
initialised to -1.  (`hdom` records the DOM fact that anchor text is part of
the container's text, so the link-text length never exceeds the total text
length.) -/
theorem c8_no_noise_selected (body : HtmlElement) (cands : List HtmlElement)
    (hgood : ∃ c ∈ cands, noiseMatch c = false ∧
      ∃ b ∈ c.blockTexts, 25 < (b.filter (fun x => !isJsWs x)).length)
    (hdom : ∀ c ∈ cands, c.linkTextLength ≤ c.totalTextLength) :
    noiseMatch (selectBestContainer body cands) = false := by
  obtain ⟨c, hc, hcn, -⟩ := hgood
  have hne : cands.isEmpty = false := by
    cases cands with
    | nil => exact absurd hc (by simp)
    | cons _ _ => rfl
  unfold selectBestContainer
  rw [hne]
  simp only [Bool.false_eq_true, if_false]
  obtain ⟨h1, h2, h3⟩ := selectBest_fold cands (body, (-1 : ℚ))
  have hcscore : (0 : ℚ) ≤ calculateScore c :=
    calculateScore_nonneg c hcn (hdom c hc)
  have hbest : (0 : ℚ) ≤ (cands.foldl (fun acc e =>
      let s := calculateScore e
      if acc.2 < s then (e, s) else acc) (body, -1)).2 :=
    le_trans hcscore (h2 c hc)
  rcases h3 with heq | ⟨hmem, hsc⟩
  · rw [heq] at hbest
    norm_num at hbest
  · by_contra hnoise
    rw [Bool.not_eq_false] at hnoise
    rw [hsc, calculateScore_noise _ hnoise] at hbest
    norm_num at hbest

/-- Witness elements: a noise-matching navigation bar and an article-like
candidate with one long paragraph. -/
def navElem : HtmlElement :=
  ⟨("nav menu").toList, [], [("Menu").toList], 0, 4, 4⟩

/-- A non-noise candidate holding a 56-character paragraph. -/
def artElem : HtmlElement :=
  ⟨("article-body").toList, [],
   [("Gold prices in Bangladesh rose fifteen percent this year").toList], 0, 0, 56⟩

/-- A plain document body element. -/
def bodyElem : HtmlElement := ⟨[], [], [], 0, 0, 0⟩

/-- Witness for the C8 theorem at a concrete candidate list. -/
theorem c8_no_noise_selected_witness :
    noiseMatch (selectBestContainer bodyElem [navElem, artElem]) = false :=
  c8_no_noise_selected bodyElem [navElem, artElem]
    (by decide) (by decide)

/-! ## Newline-collapsing lemmas -/

theorem dropWhile_length_le (p : Char → Bool) (l : List Char) :
    (l.dropWhile p).length ≤ l.length := by
  induction l with
  | nil => simp
  | cons a t ih =>
    by_cases ha : p a = true
    · rw [List.dropWhile_cons_of_pos ha]
      exact le_trans ih (by simp)
    · rw [List.dropWhile_cons_of_neg ha]

theorem collapseWsRuns_nil : collapseWsRuns [] = [] := by
  simp [collapseWsRuns]

theorem hasThreeNl_cons_of_ne (c : Char) (y : List Char) (hc : c ≠ '\n')
    (hy : hasThreeNl y = false) : hasThreeNl (c :: y) = false := by
  match y with
  | [] => rfl
  | [_] => rfl
  | a :: b :: t =>
    unfold hasThreeNl
    simp only [Bool.or_eq_false_iff]
    exact ⟨by simp [hc], hy⟩

theorem hasThreeNl_cons_nl (y : List Char)
    (hlen : (y.takeWhile (fun x => x = '\n')).length ≤ 1)
    (hy : hasThreeNl y = false) : hasThreeNl ('\n' :: y) = false := by
  match y with
  | [] => rfl
  | [_] => rfl
  | a :: b :: t =>
    unfold hasThreeNl
    simp only [Bool.or_eq_false_iff]
    refine ⟨?_, hy⟩
    by_cases ha : a = '\n'
    · by_cases hb : b = '\n'
      · exfalso
        rw [List.takeWhile_cons_of_pos (by simp [ha]),
          List.takeWhile_cons_of_pos (by simp [hb])] at hlen
        simp at hlen
      · simp [hb]
    · simp [ha]

theorem takeWhile_nl_len_zero (y : List Char)
    (h : (y.takeWhile (fun x => x = '\n')).length = 0) :
    ∀ c ∈ y.head?, c ≠ '\n' := by
  intro c hc hnl
  cases y with
  | nil => simp at hc
  | cons a t =>
    simp at hc
    subst hc
    rw [List.takeWhile_cons_of_pos (by simp [hnl])] at h
    simp at h

/-- The invariant behind the `(\n\s*){3,}` collapse: the output never holds
three consecutive newlines, and its leading newline run is bounded by two
and by the newline count of the input's leading whitespace run. -/
theorem collapseWsRuns_bound : ∀ (n : Nat) (s : List Char), s.length ≤ n →
    hasThreeNl (collapseWsRuns s) = false ∧
    ((collapseWsRuns s).takeWhile (fun x => x = '\n')).length ≤
      min 2 ((s.takeWhile isJsWs).count '\n') := by
  intro n
  induction n with
  | zero =>
    intro s hs
    have : s = [] := List.eq_nil_of_length_eq_zero (Nat.le_zero.mp hs)
    subst this
    rw [collapseWsRuns_nil]
    exact ⟨rfl, by simp⟩
  | succ n ih =>
    intro s hs
    match s with
    | [] =>
      rw [collapseWsRuns_nil]
      exact ⟨rfl, by simp⟩
    | c :: rest =>
      rw [collapseWsRuns]
      by_cases hcond : c = '\n' ∧ 3 ≤ ((c :: rest).takeWhile isJsWs).count '\n'
      · rw [if_pos hcond]
        set d := rest.dropWhile isJsWs with hd
        have hdlen : d.length ≤ n := by
          have h1 : d.length ≤ rest.length := by
            rw [hd]
            exact dropWhile_length_le isJsWs rest
          simp only [List.length_cons] at hs
          omega
        obtain ⟨ih1, ih2⟩ := ih d hdlen
        have hdws : d.takeWhile isJsWs = [] := by
          rw [hd]
          cases hdd : rest.dropWhile isJsWs with
          | nil => rfl
          | cons a t =>
            have ha : isJsWs a = false := by
              have := dropWhile_head_false (p := isJsWs) rest
              rw [hdd] at this
              exact this a (by simp)
            rw [List.takeWhile_cons_of_neg (by simp [ha])]
        rw [hdws] at ih2
        simp only [List.count_nil, Nat.min_zero, Nat.le_zero] at ih2
        have hhead := takeWhile_nl_len_zero _ ih2
        constructor
        · refine hasThreeNl_cons_nl _ ?_ (hasThreeNl_cons_nl _ ?_ ih1)
          · rw [List.takeWhile_cons_of_pos (by simp)]
            simp only [List.length_cons]
            omega
          · omega
        · rw [List.takeWhile_cons_of_pos (by simp),
            List.takeWhile_cons_of_pos (by simp)]
          cases hY : (collapseWsRuns d).takeWhile (fun x => x = '\n') with
          | nil => simp; omega
          | cons a t =>
            exfalso
            rw [hY] at ih2
            simp at ih2
      · rw [if_neg hcond]
        have hrest : rest.length ≤ n := by
          simp only [List.length_cons] at hs
          omega
        obtain ⟨ih1, ih2⟩ := ih rest hrest
        by_cases hc : c = '\n'
        · subst hc
          have hcount : ((('\n' : Char) :: rest).takeWhile isJsWs).count '\n' ≤ 2 := by
            by_contra hgt
            exact hcond ⟨rfl, by omega⟩
          rw [List.takeWhile_cons_of_pos (by decide)] at hcount
          simp only [List.count_cons, if_pos rfl] at hcount
          have hcr : (rest.takeWhile isJsWs).count '\n' ≤ 1 := by
            simp at hcount
            omega
          have hYlen : ((collapseWsRuns rest).takeWhile (fun x => x = '\n')).length ≤ 1 := by
            omega
          constructor
          · exact hasThreeNl_cons_nl _ hYlen ih1
          · rw [List.takeWhile_cons_of_pos (by simp),
              List.takeWhile_cons_of_pos (by decide)]
            simp only [List.length_cons, List.count_cons, if_pos rfl]
            simp
            omega
        · constructor
          · exact hasThreeNl_cons_of_ne c _ hc ih1
          · rw [List.takeWhile_cons_of_neg (by simp [hc])]
            simp

/-! ## Claim theorems: extractCleanText newline normalization -/

/-- Claim C9.  For every input (every list of block texts), the string
`extractCleanText` returns contains no run of three or more consecutive
newline characters: the final trim plus `(\n\s*){3,}` to `\n\n` replacement
guarantees this for all possible concatenations of block texts. -/
theorem c9_no_triple_newline (blocks : List (List Char)) :
    hasThreeNl (extractCleanText blocks) = false := by
  unfold extractCleanText
  exact (collapseWsRuns_bound _ _ le_rfl).1

/-! ## Claim theorems: content extractor length gate -/

/-- Claim C7.  The fetch-and-generate path raises the content-too-short
error if and only if the final combined text (title, blank line, body, after
newline collapsing and trimming) has fewer than 500 characters; with 500 or
more characters no length error is raised and the (untrimmed) combined text
is what gets passed to keyword generation. -/
theorem c7_content_length_gate (title content : List Char) :
    ((handleFetchCheck title content).isOk = false
        ↔ (finalCombinedText title content).length < 500)
    ∧ (∀ out, handleFetchCheck title content = Except.ok out →
        out = title ++ '\n' :: '\n' :: collapseNlSeq content) := by
  constructor
  · unfold handleFetchCheck finalCombinedText
    by_cases h : (trimWs (title ++ '\n' :: '\n' :: collapseNlSeq content)).length < 500
    · rw [if_pos h]
      exact ⟨fun _ => h, fun _ => rfl⟩
    · rw [if_neg h]
      refine ⟨fun hfalse => ?_, fun hcond => absurd hcond h⟩
      exact absurd hfalse (by simp [Except.isOk, Except.toBool])
  · intro out hout
    simp only [handleFetchCheck] at hout
    split at hout
    · exact absurd hout (by simp)
    · simpa using hout.symm

end TdsSeo
